import Mathlib

namespace Danmu

/-!
Verification of the asynchronous task / import pipeline of the
misaka danmaku server (file `src/tasks.py`), against its natural-language
specification.

The Python code is shallowly embedded:

* machine integers are `Nat` (Python ints are unbounded and all values in
  scope are non-negative),
* Python strings are `String`, except in the danmaku codec where they are
  modelled as `List Char` so that splitting / joining / escaping can be
  reasoned about by structural induction,
* the SQLAlchemy session is modelled as a committed database state plus a
  transaction working state (`commit` publishes the working state,
  `rollback` resets it), with the `FOREIGN_KEY_CHECKS` session variable as
  a separate non-transactional flag,
* faults (network errors, lock timeouts, failing file renames, failing
  commits) are injected through explicit oracle parameters, and exceptions
  (`TaskSuccess`, database errors) become explicit outcome values.
-/

/-! ## Decimal digit strings

`reorder_episodes_task` computes episode identities with
`int(f"25{anime_id:06d}{source_order:02d}{new_index:04d}")`: decimal
renderings of the three fields, zero-padded to widths 6, 2 and 4 (padding
never truncates), concatenated after the literal "25" and read back as a
decimal integer.  Decimal strings are modelled as lists of digit values
(most significant first); the renderer carries explicit fuel so that it is
structurally recursive and evaluates inside the kernel. -/

/-- Decimal digits of `n`, most significant first, with recursion fuel;
fully accurate whenever `n < fuel`. -/
def natDigitsAux : Nat → Nat → List Nat
  | 0, _ => []
  | fuel + 1, n =>
    if n < 10 then [n] else natDigitsAux fuel (n / 10) ++ [n % 10]

/-- Decimal digits of `n`, most significant first (`0` renders as `[0]`),
modelling Python's `str(n)` for a non-negative int. -/
def natDigits (n : Nat) : List Nat := natDigitsAux (n + 1) n

/-- Python `f"{n:0wd}"`: zero-pad the decimal rendering of `n` on the left to at
least width `w` (no truncation). -/
def padDigits (w : Nat) (n : Nat) : List Nat :=
  List.replicate (w - (natDigits n).length) 0 ++ natDigits n

/-- Value of a digit list read as a decimal integer (`int(s)`). -/
def digitsVal (l : List Nat) : Nat :=
  l.foldl (fun acc d => acc * 10 + d) 0

/-- The digit string `"25" ++ f"{a:06d}" ++ f"{o:02d}" ++ f"{i:04d}"`
built by `reorder_episodes_task` for anime id `a`, source order `o` and
episode index `i`. -/
def episodeIdDigits (a o i : Nat) : List Nat :=
  [2, 5] ++ padDigits 6 a ++ padDigits 2 o ++ padDigits 4 i

/-- Source `new_id = int(f"25{anime_id:06d}{source_order:02d}{new_index:04d}")`
(tasks.py line 768). -/
def newEpisodeId (a o i : Nat) : Nat :=
  digitsVal (episodeIdDigits a o i)

/-! ## The catalog and the session

`reorder_episodes_task` works on the `episode` and `anime_sources` tables
through one SQLAlchemy `AsyncSession`.  The session is modelled as a
committed database state plus a transaction working state; `commit`
publishes the working state and `rollback` resets it to the committed one.
The MySQL `FOREIGN_KEY_CHECKS` / PostgreSQL `session_replication_role`
switch is a connection-level variable: it takes effect as soon as the
`SET` statement executes and is not undone by `rollback`, so it lives
outside the transactional part of the state. -/

/-- One row of the `episode` table (the fields `reorder_episodes_task`
reads and rewrites). -/
structure EpisodeRow where
  id : Nat
  sourceId : Nat
  episodeIndex : Nat
  title : String
  sourceUrl : Option String
  providerEpisodeId : Option String
  fetchedAt : Nat
  commentCount : Nat
  danmakuFilePath : Option String
deriving DecidableEq, Repr

/-- The catalog rows the reorder job touches: `anime_sources` rows as
(source id, anime id) pairs, and `episode` rows. -/
structure DbState where
  sources : List (Nat × Nat)
  episodes : List EpisodeRow
deriving DecidableEq, Repr

/-- An open session: committed state, transaction working state, and the
connection-level referential-integrity switch. -/
structure SessionState where
  db : DbState
  txn : DbState
  fkChecksEnabled : Bool
deriving DecidableEq, Repr

/-- Session `await session.commit()`. -/
def commitS (st : SessionState) : SessionState := { st with db := st.txn }

/-- Session `await session.rollback()`. -/
def rollbackS (st : SessionState) : SessionState := { st with txn := st.db }

/-- Dialect: `session.bind.dialect.name` outcomes distinguished by the task. -/
inductive Dialect
  | mysql
  | postgres
  | other
deriving DecidableEq, Repr

/-- Statement `SET FOREIGN_KEY_CHECKS=0` / `SET session_replication_role = 'replica'`
(tasks.py lines 722-725); nothing is executed for other dialects. -/
def applyDisableFk (d : Dialect) (st : SessionState) : SessionState :=
  match d with
  | .mysql => { st with fkChecksEnabled := false }
  | .postgres => { st with fkChecksEnabled := false }
  | .other => st

/-- Statement `SET FOREIGN_KEY_CHECKS=1` / `SET session_replication_role = 'origin'`
(tasks.py lines 802-805). -/
def applyEnableFk (d : Dialect) (st : SessionState) : SessionState :=
  match d with
  | .mysql => { st with fkChecksEnabled := true }
  | .postgres => { st with fkChecksEnabled := true }
  | .other => st

/-- Modelled from the spec: `crud.get_anime_source_info` is not under
`src/`; per the spec's catalog-store contract it is a keyed lookup that
returns the source row's work reference (`animeId`) or nothing. -/
def getAnimeSourceInfo (db : DbState) (sid : Nat) : Option Nat :=
  (db.sources.find? (fun p => p.1 == sid)).map (fun p => p.2)

/-- Query `SELECT id FROM anime_sources WHERE anime_id = :a ORDER BY id`
(tasks.py lines 738-743). -/
def sortedSourceIds (db : DbState) (animeId : Nat) : List Nat :=
  ((db.sources.filter (fun p => p.2 == animeId)).map
    (fun p => p.1)).insertionSort (fun x y => x ≤ y)

/-- The `ORDER BY (episode_index, id)` comparison of the episode query. -/
def epLe (e f : EpisodeRow) : Prop :=
  e.episodeIndex < f.episodeIndex
    ∨ (e.episodeIndex = f.episodeIndex ∧ e.id ≤ f.id)

instance epLe.instDecidableRel : DecidableRel epLe := fun e f => by
  unfold epLe
  infer_instance

instance epLe.instIsTotal : IsTotal EpisodeRow epLe :=
  ⟨fun a b => by unfold epLe; omega⟩

instance epLe.instIsTrans : IsTrans EpisodeRow epLe :=
  ⟨fun a b c hab hbc => by unfold epLe at *; omega⟩

/-- Query `SELECT * FROM episode WHERE source_id = :sid
ORDER BY episode_index, id` (tasks.py lines 751-755). -/
def sortedEpisodes (db : DbState) (sid : Nat) : List EpisodeRow :=
  (db.episodes.filter (fun e => e.sourceId == sid)).insertionSort epLe

/-- Whether the episode at 1-based position `idx1` already carries the
target identity and index (`old_ep.id == new_id and
old_ep.episodeIndex == new_index`, tasks.py line 770). -/
def epCorrect (a so idx1 : Nat) (e : EpisodeRow) : Bool :=
  e.id == newEpisodeId a so idx1 && e.episodeIndex == idx1

/-- The replacement row staged for an episode that must change
(tasks.py lines 773-781): same descriptive fields, new identity and
index, and the relocated danmaku path when the old row had a truthy one. -/
def targetRow (a so idx1 : Nat) (old : EpisodeRow) : EpisodeRow :=
  let newId := newEpisodeId a so idx1
  { id := newId
    sourceId := old.sourceId
    episodeIndex := idx1
    title := old.title
    sourceUrl := old.sourceUrl
    providerEpisodeId := old.providerEpisodeId
    fetchedAt := old.fetchedAt
    commentCount := old.commentCount
    danmakuFilePath :=
      match old.danmakuFilePath with
      | some s =>
        if s = "" then none
        else some ("/data/danmaku/" ++ toString a ++ "/" ++ toString newId
          ++ ".xml")
      | none => none }

/-- The staging loop (tasks.py lines 766-782): position `i` is the 0-based
`enumerate` counter; returns `(old_episodes_to_delete, new_episodes_to_add)`
in loop order. -/
def stagePlanAux (a so : Nat) : Nat → List EpisodeRow → List EpisodeRow × List EpisodeRow
  | _, [] => ([], [])
  | i, e :: rest =>
    let tail := stagePlanAux a so (i + 1) rest
    if epCorrect a so (i + 1) e then tail
    else (e :: tail.1, targetRow a so (i + 1) e :: tail.2)

def stagePlan (a so : Nat) (eps : List EpisodeRow) :
    List EpisodeRow × List EpisodeRow :=
  stagePlanAux a so 0 eps

/-- Deletes then inserts applied to the working state (tasks.py lines
789-792): the staged old rows are deleted (by primary key) and the staged
new rows inserted. -/
def applyStage (plan : List EpisodeRow × List EpisodeRow) (db : DbState) :
    DbState :=
  { db with episodes :=
      (db.episodes.filter (fun r => plan.1.all (fun d => !(d.id == r.id))))
        ++ plan.2 }

/-- The fault oracle: `failAt = some k` makes the k-th fallible operation
of the run raise. -/
def hits (failAt : Option Nat) (k : Nat) : Bool := failAt == some k

/-- Whether the oracle hits one of the staging loop's file-relocation
steps (tasks.py lines 774-779; step number `base + position`): only an
episode that must change and owns a truthy danmaku path touches the file
system there. -/
def renameFaultHits (a so : Nat) (failAt : Option Nat) (base : Nat)
    (eps : List EpisodeRow) : Bool :=
  match failAt with
  | none => false
  | some k =>
    eps.enum.any (fun p =>
      k == base + p.1 && !(epCorrect a so (p.1 + 1) p.2) &&
        (match p.2.danmakuFilePath with
         | some s => !(s == "")
         | none => false))

/-- Terminal outcomes of the reorder job: the three `TaskSuccess`
messages and the failure case (any other exception propagating to the
task manager). -/
inductive ReorderOutcome
  | successMigrated (n : Nat)
  | noopNoEpisodes
  | noopAllCorrect
  | failed
deriving DecidableEq, Repr

/-- The inner `try` body of `reorder_episodes_task` (tasks.py lines
730-799) together with its `except` clause: every exception — including
the `TaskSuccess` control-flow signal — is caught, the session is rolled
back, and the exception re-raised.  Fallible steps are numbered 2 (source
info query), 3 (source list query), 4 (episode query), `5 + position`
(file relocation inside the staging loop), `5 + N` (flush) and `6 + N`
(final commit). -/
def reorderInner (sid : Nat) (failAt : Option Nat) (st : SessionState) :
    ReorderOutcome × SessionState :=
  if hits failAt 2 then (.failed, rollbackS st)
  else
    match getAnimeSourceInfo st.txn sid with
    | none => (.failed, rollbackS st)
    | some a =>
      if hits failAt 3 then (.failed, rollbackS st)
      else
        match (sortedSourceIds st.txn a).indexOf? sid with
        | none => (.failed, rollbackS st)
        | some rank =>
          let so := rank + 1
          if hits failAt 4 then (.failed, rollbackS st)
          else
            let eps := sortedEpisodes st.txn sid
            if eps.isEmpty then (.noopNoEpisodes, rollbackS st)
            else
              let plan := stagePlan a so eps
              if plan.1.isEmpty then (.noopAllCorrect, rollbackS st)
              else if renameFaultHits a so failAt 5 eps then
                (.failed, rollbackS st)
              else if hits failAt (5 + eps.length) then (.failed, rollbackS st)
              else
                let st2 := { st with txn := applyStage plan st.txn }
                if hits failAt (6 + eps.length) then (.failed, rollbackS st2)
                else (.successMigrated plan.2.length, rollbackS (commitS st2))

/-- The inner `finally` block (tasks.py lines 800-806): re-enable
referential integrity for the dialect and commit.  The cleanup statements
themselves are assumed to succeed. -/
def reorderFinally (d : Dialect) (st : SessionState) : SessionState :=
  commitS (applyEnableFk d st)

/-- Task `reorder_episodes_task` (tasks.py lines 711-809).  Steps 0 (the
disable statement) and 1 (the commit right after it, line 728) happen
before the inner `try`, so a fault there skips the `finally` block; the
outer `except` only logs and re-raises. -/
def reorderRun (d : Dialect) (sid : Nat) (failAt : Option Nat)
    (st0 : SessionState) : ReorderOutcome × SessionState :=
  if hits failAt 0 then (.failed, st0)
  else
    let st1 := applyDisableFk d st0
    if hits failAt 1 then (.failed, st1)
    else
      let st2 := commitS st1
      let r := reorderInner sid failAt st2
      (r.1, reorderFinally d r.2)

/-- Concrete episode row used by witnesses. -/
def atomicWitnessRow : EpisodeRow :=
  { id := 77, sourceId := 1, episodeIndex := 1, title := "ep",
    sourceUrl := none, providerEpisodeId := none, fetchedAt := 0,
    commentCount := 0, danmakuFilePath := none }

/-- Concrete one-episode session used by the C2 witness. -/
def atomicWitnessState : SessionState :=
  { db := { sources := [(1, 5)], episodes := [atomicWitnessRow] },
    txn := { sources := [(1, 5)], episodes := [atomicWitnessRow] },
    fkChecksEnabled := true }

/-- Concrete session for the C3 counterexample. -/
def fkCexState : SessionState :=
  { db := { sources := [(1, 5)], episodes := [] },
    txn := { sources := [(1, 5)], episodes := [] },
    fkChecksEnabled := true }

/-- The row sequence the staging loop aims for: position `k` (0-based,
starting at enumeration offset `i`) keeps the original row when it is
already correct and otherwise carries the staged replacement row. -/
def targetListAux (a so : Nat) : Nat → List EpisodeRow → List EpisodeRow
  | _, [] => []
  | i, e :: rest =>
    (if epCorrect a so (i + 1) e then e else targetRow a so (i + 1) e)
      :: targetListAux a so (i + 1) rest

/-- Strict comparison of episode rows by their index. -/
def epIdxLt (x y : EpisodeRow) : Prop := x.episodeIndex < y.episodeIndex

instance epIdxLt.instIsAntisymm : IsAntisymm EpisodeRow epIdxLt :=
  ⟨fun _ _ h h' => absurd h' (by unfold epIdxLt at *; omega)⟩

/-- Concrete session used by the C1 witness: one source, one episode
with a wrong identity. -/
def identityWitnessState : SessionState :=
  { db := { sources := [(1, 5)], episodes := [atomicWitnessRow] },
    txn := { sources := [(1, 5)], episodes := [atomicWitnessRow] },
    fkChecksEnabled := true }

/-- Concrete session used by the C4 witness. -/
def noopWitnessState : SessionState :=
  { db := { sources := [(1, 5)], episodes := [atomicWitnessRow] },
    txn := { sources := [(1, 5)], episodes := [atomicWitnessRow] },
    fkChecksEnabled := true }

/-! ## The episode-processing loop

`_process_episode_list` (tasks.py lines 286-344) iterates a provider's
episode list with a manual index `i`.  Each iteration consults the rate
limiter and fetches comments; outcomes of that fallible section are
supplied by an oracle list (one entry per iteration attempt).  A crucial
detail of the source: the handler chain is

    except RateLimitExceededError ... continue
    except httpx.RequestError ... failed += 1
    except Exception ... failed += 1

but `httpx` is never imported in `tasks.py`, so as soon as any exception
other than `RateLimitExceededError` must be matched, evaluating
`httpx.RequestError` raises `NameError: name 'httpx' is not defined`,
which propagates and aborts the whole job.  The embedding reproduces
this. -/

/-- One provider episode handed to the loop. -/
structure EpInfo where
  episodeId : String
  title : String
  episodeIndex : Nat
deriving DecidableEq, Repr

/-- Oracle outcome of one iteration's rate-limiter check plus fetch. -/
inductive FetchOutcome
  | rateLimited (wait : Nat)
  | transportFault
  | otherFault
  | ok (commentCount : Nat)
deriving DecidableEq, Repr

/-- Observable actions of the loop. -/
inductive LoopEvent
  | reportRunning
  | reportPaused (wait : Nat)
  | sleep (wait : Nat)
  | incrementBudget
  | commit
deriving DecidableEq, Repr

/-- Result of running the loop. -/
structure ProcResult where
  totalCommentsAdded : Nat
  failedCount : Nat
  budgetUsed : Nat
  events : List LoopEvent
  attempts : List Nat
  aborted : Bool
deriving DecidableEq, Repr

/-- The loop of `_process_episode_list` (tasks.py lines 304-344), driven
by the outcome oracle (arguments: oracle, `i`, `total_comments_added`,
`failed_episodes_count`, consumed rate budget).  A rate-limit signal
reports `PAUSED` with the signal's wait, sleeps that long and retries the
same `i`; a transport or unknown fault aborts through the unintended
`NameError`; a fetch returning comments consumes one budget token, writes
and commits, then advances; an empty fetch just advances. -/
def processLoop (eps : List EpInfo) :
    List FetchOutcome → Nat → Nat → Nat → Nat → ProcResult
  | outs, i, added, failed, budget =>
    if i < eps.length then
      match outs with
      | [] =>
        { totalCommentsAdded := added, failedCount := failed,
          budgetUsed := budget, events := [], attempts := [],
          aborted := false }
      | .rateLimited w :: rest =>
        let r := processLoop eps rest i added failed budget
        { r with
          events := .reportRunning :: .reportPaused w :: .sleep w
            :: r.events,
          attempts := i :: r.attempts }
      | .transportFault :: _ =>
        { totalCommentsAdded := added, failedCount := failed,
          budgetUsed := budget, events := [.reportRunning],
          attempts := [i], aborted := true }
      | .otherFault :: _ =>
        { totalCommentsAdded := added, failedCount := failed,
          budgetUsed := budget, events := [.reportRunning],
          attempts := [i], aborted := true }
      | .ok n :: rest =>
        if n ≠ 0 then
          let r := processLoop eps rest (i + 1) (added + n) failed
            (budget + 1)
          { r with
            events := .reportRunning :: .incrementBudget :: .commit
              :: r.events,
            attempts := i :: r.attempts }
        else
          let r := processLoop eps rest (i + 1) added failed budget
          { r with
            events := .reportRunning :: r.events,
            attempts := i :: r.attempts }
    else
      { totalCommentsAdded := added, failedCount := failed,
        budgetUsed := budget, events := [], attempts := [],
        aborted := false }

/-- Concrete episode for the C5 witness. -/
def procWitnessEp : EpInfo :=
  { episodeId := "ep1", title := "t", episodeIndex := 1 }

/-- Concrete episode for the C6 code-bug evaluation. -/
def transportCexEp : EpInfo :=
  { episodeId := "ep1", title := "t", episodeIndex := 1 }

/-! ## Bulk episode deletion

`delete_bulk_episodes_task` (tasks.py lines 346-375) deletes the given
episodes one by one, committing after each one and sleeping 0.1 s to
release locks; its only exception handling is a generic
`except Exception` that rolls back and re-raises (after the `TaskSuccess`
passthrough).  There is no retry and no backoff in this task — the
bounded lock-timeout retry with sleeps of 2/4/8 s lives in
`delete_anime_task` (lines 191-232) and applies to whole-work deletion
only. -/

/-- Result of a bulk-delete run: the committed table, the reported
deleted count, whether the job failed (exception re-raised), which item
positions were attempted in order, the retry-backoff sleeps performed
(seconds), and how many 0.1 s pacing sleeps happened. -/
structure BulkDeleteResult where
  committedEpisodes : List EpisodeRow
  deletedCount : Nat
  failed : Bool
  attempts : List Nat
  backoffSleeps : List Nat
  pacingSleeps : Nat
deriving DecidableEq, Repr

/-- The loop of `delete_bulk_episodes_task`, with `k` the 0-based item
position and a fault oracle naming the position whose deletion raises a
lock-contention fault; the fault aborts the whole batch (rollback of the
uncommitted item, re-raise). -/
def bulkDeleteAux (faultAt : Option Nat) :
    Nat → List Nat → List EpisodeRow → BulkDeleteResult
  | _, [], db =>
    { committedEpisodes := db, deletedCount := 0, failed := false,
      attempts := [], backoffSleeps := [], pacingSleeps := 0 }
  | k, eid :: rest, db =>
    if hits faultAt k then
      { committedEpisodes := db, deletedCount := 0, failed := true,
        attempts := [k], backoffSleeps := [], pacingSleeps := 0 }
    else
      let present := db.any (fun e => e.id == eid)
      let db' := if present then db.filter (fun e => !(e.id == eid)) else db
      let r := bulkDeleteAux faultAt (k + 1) rest db'
      { committedEpisodes := r.committedEpisodes,
        deletedCount := (if present then 1 else 0) + r.deletedCount,
        failed := r.failed,
        attempts := k :: r.attempts,
        backoffSleeps := r.backoffSleeps,
        pacingSleeps := (if present then 1 else 0) + r.pacingSleeps }

/-- Task `delete_bulk_episodes_task` over a committed episode table. -/
def delete_bulk_episodes (episodeIds : List Nat) (faultAt : Option Nat)
    (db : List EpisodeRow) : BulkDeleteResult :=
  bulkDeleteAux faultAt 0 episodeIds db

/-- The committed table after deleting a prefix of the id list, one
commit per id. -/
def applyBulkDeletes (ids : List Nat) (db : List EpisodeRow) :
    List EpisodeRow :=
  ids.foldl (fun d eid =>
    if d.any (fun e => e.id == eid)
    then d.filter (fun e => !(e.id == eid)) else d) db

/-- Concrete rows for the C9 counterexample and witness. -/
def bulkCexRow1 : EpisodeRow :=
  { id := 1, sourceId := 9, episodeIndex := 1, title := "e1",
    sourceUrl := none, providerEpisodeId := none, fetchedAt := 0,
    commentCount := 0, danmakuFilePath := none }

def bulkCexRow2 : EpisodeRow :=
  { id := 2, sourceId := 9, episodeIndex := 2, title := "e2",
    sourceUrl := none, providerEpisodeId := none, fetchedAt := 0,
    commentCount := 0, danmakuFilePath := none }

/-! ## Episode-range compression

`_generate_episode_range_string` (tasks.py lines 61-83) deduplicates and
sorts the indices (`sorted(list(set(...)))`, modelled by `dedupSort`, the
unique ascending duplicate-free enumeration), then folds consecutive runs
into `"a-b"` tokens, emitting `str(start)` for singletons, joined with
`", "`; empty input yields the literal `"无"`. -/

/-- Insert into an ascending duplicate-free list, keeping it so. -/
def insertUnique (x : Int) : List Int → List Int
  | [] => [x]
  | y :: ys =>
    if x = y then y :: ys
    else if x < y then x :: y :: ys
    else y :: insertUnique x ys

/-- Python `sorted(list(set(xs)))`: the ascending duplicate-free enumeration. -/
def dedupSort : List Int → List Int
  | [] => []
  | x :: xs => insertUnique x (dedupSort xs)

/-- Token `str(start) if start == end else f"{start}-{end}"`. -/
def tokenStr (a b : Int) : String :=
  if a = b then toString a else toString a ++ "-" ++ toString b

/-- The run-merging loop (tasks.py lines 76-82), producing the token
list. -/
def rangeTokens : Int → Int → List Int → List String
  | start, e, [] => [tokenStr start e]
  | start, e, x :: rest =>
    if x = e + 1 then rangeTokens start x rest
    else tokenStr start e :: rangeTokens x x rest

/-- Function `_generate_episode_range_string`. -/
def generate_episode_range_string (episode_indices : List Int) : String :=
  if episode_indices.isEmpty then "无"
  else
    match dedupSort episode_indices with
    | [] => "无"
    | x :: rest => String.intercalate ", " (rangeTokens x x rest)

/-- The same loop at the level of run endpoints. -/
def rangeRuns : Int → Int → List Int → List (Int × Int)
  | start, e, [] => [(start, e)]
  | start, e, x :: rest =>
    if x = e + 1 then rangeRuns start x rest
    else (start, e) :: rangeRuns x x rest

/-- The closed integer interval `[a, b]` as a list. -/
def intRange (a b : Int) : List Int :=
  (List.range (b + 1 - a).toNat).map (fun n => a + Int.ofNat n)

/-! ## Danmaku codec

`_generate_dandan_xml` (tasks.py lines 85-120) emits a fixed header plus
one `<d p="P">T</d>` element per comment, XML-escaping the text (Python's
`xml.sax.saxutils.escape`: `&`, `<`, `>`) but not the `p` attribute, and
inserting a default font size `"25"` at position 2 of the comma-split
`p` when only 3 core fields precede a bracketed tag.
`_parse_xml_content` (lines 31-59) walks the `<d>` elements, keeps only
those with a `p` attribute and non-`None` text (an empty element has
`text is None` and is dropped), and normalizes `p` to its first four
fields plus a `[custom_xml]` marker when it has at least 4 fields.

Python strings are modelled as `List Char`; a document is abstracted to
its list of `<d>` entries as (raw attribute, raw text) pairs — the XML
layer contributes, on the way back in, the parser's line-ending
normalization of the input stream (`normNewlines`: `\r\n` and `\r`
become `\n`), entity decoding (`unescapeChars`, with bounded fuel so it
evaluates), attribute whitespace normalization (`normAttrChar`), and
`ET.ParseError` at the first ill-formed entry (`entryWellFormed`):
expat queues the error behind the events already produced, so
`_parse_xml_content` catches it (tasks.py lines 56-59) and returns
exactly the entries preceding the ill-formed one.  `elem.text = None`
exactly when the raw text is empty.  Numeric character references,
which this generator never emits, are outside the abstraction and
classified with the ill-formed inputs. -/

/-- A comment dict as the codec sees it: packed attribute `p` and text
`m` (Python `.get` defaults are the caller's concern; both fields are
present here). -/
structure DComment where
  p : List Char
  m : List Char
deriving DecidableEq, Repr

/-- Escape `xml.sax.saxutils.escape`: `&` → `&amp;` first, then `<` → `&lt;`,
`>` → `&gt;`. -/
def escapeChars : List Char → List Char
  | [] => []
  | c :: rest =>
    if c = '&' then '&' :: 'a' :: 'm' :: 'p' :: ';' :: escapeChars rest
    else if c = '<' then '&' :: 'l' :: 't' :: ';' :: escapeChars rest
    else if c = '>' then '&' :: 'g' :: 't' :: ';' :: escapeChars rest
    else c :: escapeChars rest

/-- XML entity decoding as the parser applies it (the five predefined
entities; numeric references never occur in documents this codec
produces), with fuel so the definition is structural. -/
def unescapeAux : Nat → List Char → List Char
  | 0, l => l
  | _ + 1, [] => []
  | fuel + 1, c :: rest =>
    if c = '&' ∧ rest.take 4 = ['a', 'm', 'p', ';'] then
      '&' :: unescapeAux fuel (rest.drop 4)
    else if c = '&' ∧ rest.take 3 = ['l', 't', ';'] then
      '<' :: unescapeAux fuel (rest.drop 3)
    else if c = '&' ∧ rest.take 3 = ['g', 't', ';'] then
      '>' :: unescapeAux fuel (rest.drop 3)
    else if c = '&' ∧ rest.take 5 = ['q', 'u', 'o', 't', ';'] then
      '"' :: unescapeAux fuel (rest.drop 5)
    else if c = '&' ∧ rest.take 5 = ['a', 'p', 'o', 's', ';'] then
      '\'' :: unescapeAux fuel (rest.drop 5)
    else c :: unescapeAux fuel rest

def unescapeChars (l : List Char) : List Char := unescapeAux l.length l

/-- XML attribute-value normalization: whitespace characters become
spaces. -/
def normAttrChar (c : Char) : Char :=
  if c = '\t' ∨ c = '\n' ∨ c = '\r' then ' ' else c

/-- Characters admissible in an XML 1.0 document (the `Char` production):
tab, LF, CR and the non-control scalar values; expat raises
`ET.ParseError` at any other character. -/
def xmlValidChar (c : Char) : Bool :=
  c = '\t' || c = '\n' || c = '\r'
    || (0x20 ≤ c.toNat && c.toNat ≤ 0xD7FF)
    || (0xE000 ≤ c.toNat && c.toNat ≤ 0xFFFD)
    || (0x10000 ≤ c.toNat && c.toNat ≤ 0x10FFFF)

/-- XML line-ending normalization of the input stream: `\r\n` and a lone
`\r` both become `\n` (fuel keeps the recursion structural). -/
def normNLAux : Nat → List Char → List Char
  | 0, l => l
  | _ + 1, [] => []
  | fuel + 1, c :: rest =>
    if c = '\r' ∧ rest.take 1 = ['\n'] then
      '\n' :: normNLAux fuel (rest.drop 1)
    else if c = '\r' then '\n' :: normNLAux fuel rest
    else c :: normNLAux fuel rest

def normNewlines (l : List Char) : List Char := normNLAux l.length l

/-- Every `&` begins one of the five predefined entity references; a
bare ampersand or an unknown reference is a well-formedness error to
expat. -/
def ampOk : List Char → Bool
  | [] => true
  | c :: rest =>
    if c = '&' then
      ((rest.take 4 == ['a', 'm', 'p', ';'])
          || (rest.take 3 == ['l', 't', ';'])
          || (rest.take 3 == ['g', 't', ';'])
          || (rest.take 5 == ['q', 'u', 'o', 't', ';'])
          || (rest.take 5 == ['a', 'p', 'o', 's', ';'])) && ampOk rest
    else ampOk rest

/-- Characters that survive a round trip through an XML attribute
unchanged: XML-valid, and none of the characters the parser decodes,
rejects or normalizes inside a double-quoted attribute value. -/
def attrSafeChar (c : Char) : Bool :=
  xmlValidChar c
    && !(c = '&' || c = '<' || c = '"' || c = '\t' || c = '\n' || c = '\r')

/-- Characters of element text that survive the round trip unchanged:
XML-valid and not a carriage return (the parser turns `\r` and `\r\n`
into `\n`). -/
def textSafeChar (c : Char) : Bool := xmlValidChar c && !(c = '\r')

/-- Well-formedness of one serialized entry `  <d p="PRAW">TRAW</d>` as
expat judges it: every character XML-valid, no stray `<`, no `"` inside
the quoted attribute value, and every `&` a predefined entity
reference. -/
def entryWellFormed (praw traw : List Char) : Bool :=
  praw.all (fun c => xmlValidChar c && !(c = '"') && !(c = '<'))
    && ampOk praw
    && traw.all (fun c => xmlValidChar c && !(c = '<'))
    && ampOk traw

/-- Python `s.split(',')`. -/
def splitComma : List Char → List (List Char)
  | [] => [[]]
  | c :: rest =>
    let r := splitComma rest
    if c = ',' then [] :: r
    else
      match r with
      | [] => [[c]]
      | h :: t => (c :: h) :: t

/-- Python `','.join(parts)`. -/
def joinComma : List (List Char) → List Char
  | [] => []
  | [p] => p
  | p :: rest => p ++ ',' :: joinComma rest

/-- Python `list.insert(n, a)` (appends when `n` is past the end). -/
def pyInsert (n : Nat) (a : α) : List α → List α
  | [] => [a]
  | x :: xs =>
    match n with
    | 0 => a :: x :: xs
    | m + 1 => x :: pyInsert m a xs

/-- The generator's scan for the first part holding a bracketed user
tag; its index is the core-field count, defaulting to the part count
(tasks.py lines 106-111). -/
def coreCount (parts : List (List Char)) : Nat :=
  (parts.findIdx? (fun part => part.contains '[' && part.contains ']')).getD
    parts.length

/-- The size fix of the generator (tasks.py lines 113-116): a packed
attribute with exactly 3 core fields gains `"25"` at position 2. -/
def fixP (p : List Char) : List Char :=
  let parts := splitComma p
  if coreCount parts = 3 then joinComma (pyInsert 2 ['2', '5'] parts)
  else p

/-- One emitted `<d>` entry: attribute as written (unescaped!), text
XML-escaped. -/
def genEntry (c : DComment) : List Char × List Char :=
  (fixP c.p, escapeChars c.m)

/-- Function `_generate_dandan_xml`, abstracted to its `<d>` entries. -/
def genEntries (cs : List DComment) : List (List Char × List Char) :=
  cs.map genEntry

/-- Function `_parse_xml_content` on one well-formed `<d>` element: the
element is dropped when its text is `None` (empty raw text); otherwise
both attribute and text pass through the stream's line-ending
normalization and entity decoding, the attribute is additionally
whitespace-normalized, and a packed attribute of at least 4 fields is
truncated to them plus the `[custom_xml]` marker. -/
def parseEntry (praw traw : List Char) : Option DComment :=
  if traw = [] then none
  else
    let pAttr := (unescapeChars (normNewlines praw)).map normAttrChar
    let t := unescapeChars (normNewlines traw)
    let parts := splitComma pAttr
    if 4 ≤ parts.length then
      some { p := joinComma (parts.take 4) ++ ',' :: ("[custom_xml]".data),
             m := t }
    else
      some { p := pAttr, m := t }

/-- Function `_parse_xml_content`, abstracted to the `<d>` entries: entries
parse in document order, and the first ill-formed one raises
`ET.ParseError`, which the function catches (tasks.py lines 56-59),
returning the entries already parsed. -/
def parseEntriesAux : List (List Char × List Char) → List DComment
  | [] => []
  | (praw, traw) :: rest =>
    if entryWellFormed praw traw then
      match parseEntry praw traw with
      | some c => c :: parseEntriesAux rest
      | none => parseEntriesAux rest
    else []

def parseEntries (entries : List (List Char × List Char)) : List DComment :=
  parseEntriesAux entries

/-- The (time, mode, size, color, text) reading of a comment, when its
packed attribute has at least 4 fields. -/
def commentTuple (c : DComment) :
    Option (List Char × List Char × List Char × List Char × List Char) :=
  match splitComma c.p with
  | t :: mo :: s :: co :: _ => some (t, mo, s, co, c.m)
  | _ => none

/-- The comment of the C7 counterexample: well-formed fields but empty
text. -/
def codecCexComment : DComment := { p := "1,2,3,4".data, m := [] }

/-- The comment of the C7 witness. -/
def codecWitnessComment : DComment :=
  { p := "10.5,1,25,16777215".data, m := "hi".data }

/-! ## Theorems -/

theorem foldl_digits (l : List Nat) (acc : Nat) :
    l.foldl (fun a d => a * 10 + d) acc =
      acc * 10 ^ l.length + l.foldl (fun a d => a * 10 + d) 0 := by
  induction l generalizing acc with
  | nil => simp
  | cons c m ih =>
    rw [List.foldl_cons, List.foldl_cons, ih (acc * 10 + c), ih (0 * 10 + c),
      List.length_cons]
    ring

theorem digitsVal_append (l m : List Nat) :
    digitsVal (l ++ m) = digitsVal l * 10 ^ m.length + digitsVal m := by
  unfold digitsVal
  rw [List.foldl_append, foldl_digits m]

theorem digitsVal_natDigitsAux (fuel n : Nat) (h : n < fuel) :
    digitsVal (natDigitsAux fuel n) = n := by
  induction fuel generalizing n with
  | zero => omega
  | succ fuel ih =>
    unfold natDigitsAux
    by_cases h10 : n < 10
    · simp [h10, digitsVal]
    · have hlt : n / 10 < n := Nat.div_lt_self (by omega) (by omega)
      have hd : n / 10 < fuel := by omega
      simp only [h10, if_false]
      rw [digitsVal_append, ih (n / 10) hd]
      simp [digitsVal]
      omega

theorem digitsVal_natDigits (n : Nat) : digitsVal (natDigits n) = n :=
  digitsVal_natDigitsAux (n + 1) n (Nat.lt_succ_self n)

theorem digitsVal_replicate_zero (k : Nat) :
    digitsVal (List.replicate k 0) = 0 := by
  induction k with
  | zero => rfl
  | succ k ih =>
    simp only [List.replicate_succ, digitsVal, List.foldl_cons]
    simpa [digitsVal] using ih

theorem digitsVal_padDigits (w n : Nat) : digitsVal (padDigits w n) = n := by
  unfold padDigits
  rw [digitsVal_append, digitsVal_replicate_zero, digitsVal_natDigits]
  omega

theorem natDigitsAux_length_le (fuel n w : Nat) (hw : 1 ≤ w)
    (h : n < 10 ^ w) (hf : n < fuel) :
    (natDigitsAux fuel n).length ≤ w := by
  induction fuel generalizing n w with
  | zero => omega
  | succ fuel ih =>
    unfold natDigitsAux
    by_cases h10 : n < 10
    · simpa [h10] using hw
    · have hw2 : 2 ≤ w := by
        rcases Nat.lt_or_ge w 2 with hlt | hge
        · exfalso
          have hw1 : w = 1 := by omega
          rw [hw1] at h
          simp at h
          omega
        · exact hge
      have hdiv : n / 10 < 10 ^ (w - 1) := by
        rw [Nat.div_lt_iff_lt_mul (by omega)]
        have hp : 10 ^ (w - 1) * 10 = 10 ^ w := by
          rw [← pow_succ]
          congr 1
          omega
        omega
      have hlt : n / 10 < n := Nat.div_lt_self (by omega) (by omega)
      have hfd : n / 10 < fuel := by omega
      have hrec := ih (n / 10) (w - 1) (by omega) hdiv hfd
      simp only [h10, if_false, List.length_append, List.length_singleton]
      omega

theorem natDigits_length_le (n w : Nat) (hw : 1 ≤ w) (h : n < 10 ^ w) :
    (natDigits n).length ≤ w :=
  natDigitsAux_length_le (n + 1) n w hw h (Nat.lt_succ_self n)

theorem padDigits_length (w n : Nat) (hw : 1 ≤ w) (h : n < 10 ^ w) :
    (padDigits w n).length = w := by
  unfold padDigits
  have := natDigits_length_le n w hw h
  simp [List.length_replicate]
  omega

/-- Under the documented field bounds the concatenated identity string,
read as a decimal integer, has the positional value
`25·10¹² + a·10⁶ + o·10⁴ + i`. -/
theorem newEpisodeId_eq (a o i : Nat)
    (ha : a < 10 ^ 6) (ho : o < 10 ^ 2) (hi : i < 10 ^ 4) :
    newEpisodeId a o i =
      25 * 10 ^ 12 + a * 10 ^ 6 + o * 10 ^ 4 + i := by
  unfold newEpisodeId episodeIdDigits
  rw [List.append_assoc, List.append_assoc]
  rw [digitsVal_append, digitsVal_append, digitsVal_append]
  rw [digitsVal_padDigits, digitsVal_padDigits, digitsVal_padDigits]
  simp only [List.length_append]
  rw [padDigits_length 6 a (by omega) ha, padDigits_length 2 o (by omega) ho,
    padDigits_length 4 i (by omega) hi]
  have h25 : digitsVal [2, 5] = 25 := rfl
  rw [h25]
  ring

/-- C10: the episode-identity encoding is injective on its documented
domain: for work ids below 1000000, source orders below 100 and episode
indices below 10000, distinct (work id, source order, episode index)
triples produce distinct identity integers. -/
theorem newEpisodeId_injective
    (a₁ o₁ i₁ a₂ o₂ i₂ : Nat)
    (ha₁ : a₁ < 1000000) (ho₁ : o₁ < 100) (hi₁ : i₁ < 10000)
    (ha₂ : a₂ < 1000000) (ho₂ : o₂ < 100) (hi₂ : i₂ < 10000)
    (h : newEpisodeId a₁ o₁ i₁ = newEpisodeId a₂ o₂ i₂) :
    a₁ = a₂ ∧ o₁ = o₂ ∧ i₁ = i₂ := by
  rw [newEpisodeId_eq a₁ o₁ i₁ (by norm_num [ha₁]) (by norm_num [ho₁])
      (by norm_num [hi₁]),
    newEpisodeId_eq a₂ o₂ i₂ (by norm_num [ha₂]) (by norm_num [ho₂])
      (by norm_num [hi₂])] at h
  norm_num at h
  omega

/-- Witness for C10 at a concrete input. -/
theorem newEpisodeId_injective_witness :
    (5 : Nat) = 5 ∧ (1 : Nat) = 1 ∧ (3 : Nat) = 3 :=
  newEpisodeId_injective 5 1 3 5 1 3
    (by decide) (by decide) (by decide) (by decide) (by decide) (by decide)
    rfl

theorem applyDisableFk_db (d : Dialect) (st : SessionState) :
    (applyDisableFk d st).db = st.db := by
  cases d <;> rfl

theorem applyDisableFk_txn (d : Dialect) (st : SessionState) :
    (applyDisableFk d st).txn = st.txn := by
  cases d <;> rfl

theorem applyEnableFk_db (d : Dialect) (st : SessionState) :
    (applyEnableFk d st).db = st.db := by
  cases d <;> rfl

theorem applyEnableFk_txn (d : Dialect) (st : SessionState) :
    (applyEnableFk d st).txn = st.txn := by
  cases d <;> rfl

/-- Exhaustive shape of the inner block's result: every exit except the
fully successful one hands `finally` the rolled-back session; the
successful exit commits the staged plan first. -/
theorem reorderInner_shape (sid : Nat) (failAt : Option Nat)
    (st : SessionState) :
    (reorderInner sid failAt st).2 = rollbackS st
    ∨ ∃ a rank,
        getAnimeSourceInfo st.txn sid = some a
        ∧ (sortedSourceIds st.txn a).indexOf? sid = some rank
        ∧ reorderInner sid failAt st
            = (.successMigrated
                 (stagePlan a (rank + 1) (sortedEpisodes st.txn sid)).2.length,
               rollbackS (commitS { st with
                 txn := applyStage
                   (stagePlan a (rank + 1) (sortedEpisodes st.txn sid))
                   st.txn })) := by
  by_cases h2 : hits failAt 2 = true
  · left
    simp [reorderInner, h2]
  · cases hfind : getAnimeSourceInfo st.txn sid with
    | none =>
      left
      simp [reorderInner, h2, hfind]
    | some a =>
      by_cases h3 : hits failAt 3 = true
      · left
        simp [reorderInner, h2, h3, hfind]
      · cases hrank : (sortedSourceIds st.txn a).indexOf? sid with
        | none =>
          left
          simp [reorderInner, h2, h3, hfind, hrank]
        | some rank =>
          by_cases h4 : hits failAt 4 = true
          · left
            simp [reorderInner, h2, h3, h4, hfind, hrank]
          · by_cases hemp : (sortedEpisodes st.txn sid).isEmpty = true
            · left
              simp [reorderInner, h2, h3, h4, hfind, hrank, hemp]
            · by_cases hplan :
                (stagePlan a (rank + 1) (sortedEpisodes st.txn sid)).1.isEmpty
                  = true
              · left
                simp [reorderInner, h2, h3, h4, hfind, hrank, hemp, hplan]
              · by_cases hrn : renameFaultHits a (rank + 1) failAt 5
                  (sortedEpisodes st.txn sid) = true
                · left
                  simp [reorderInner, h2, h3, h4, hfind, hrank, hemp, hplan,
                    hrn]
                · by_cases h5 : hits failAt
                    (5 + (sortedEpisodes st.txn sid).length) = true
                  · left
                    simp [reorderInner, h2, h3, h4, hfind, hrank, hemp,
                      hplan, hrn, h5]
                  · by_cases h6 : hits failAt
                      (6 + (sortedEpisodes st.txn sid).length) = true
                    · left
                      simp [reorderInner, h2, h3, h4, hfind, hrank, hemp,
                        hplan, hrn, h5, h6, rollbackS]
                    · right
                      refine ⟨a, rank, rfl, hrank, ?_⟩
                      simp [reorderInner, h2, h3, h4, hfind, hrank, hemp,
                        hplan, hrn, h5, h6]

/-- All failure exits of the inner block roll the session back. -/
theorem reorderInner_failed_state (sid : Nat) (failAt : Option Nat)
    (st : SessionState)
    (h : (reorderInner sid failAt st).1 = .failed) :
    (reorderInner sid failAt st).2 = rollbackS st := by
  rcases reorderInner_shape sid failAt st with hs | ⟨a, rank, _, _, hs⟩
  · exact hs
  · rw [hs] at h
    simp at h

/-- The inner block never touches the connection-level integrity switch. -/
theorem reorderInner_fk (sid : Nat) (failAt : Option Nat)
    (st : SessionState) :
    (reorderInner sid failAt st).2.fkChecksEnabled = st.fkChecksEnabled := by
  rcases reorderInner_shape sid failAt st with hs | ⟨a, rank, _, _, hs⟩
  · rw [hs]
    rfl
  · rw [hs]
    rfl

/-- C2: if any fault makes the reorder job fail, the whole renumbering is
rolled back: the committed episode (and source) rows after the failed run
are exactly the rows before it, whatever step the fault hit. -/
theorem reorder_fault_atomic (d : Dialect) (sid : Nat) (failAt : Option Nat)
    (st0 : SessionState) (hsync : st0.txn = st0.db)
    (hfail : (reorderRun d sid failAt st0).1 = .failed) :
    (reorderRun d sid failAt st0).2.db = st0.db := by
  by_cases h0 : hits failAt 0 = true
  · simp [reorderRun, h0]
  · by_cases h1 : hits failAt 1 = true
    · have hrun : (reorderRun d sid failAt st0).2 = applyDisableFk d st0 := by
        simp [reorderRun, h0, h1]
      rw [hrun, applyDisableFk_db]
    · have hfail' : (reorderInner sid failAt
          (commitS (applyDisableFk d st0))).1 = .failed := by
        simpa [reorderRun, h0, h1] using hfail
      have hroll := reorderInner_failed_state sid failAt
        (commitS (applyDisableFk d st0)) hfail'
      have hrun : (reorderRun d sid failAt st0).2
          = reorderFinally d (reorderInner sid failAt
              (commitS (applyDisableFk d st0))).2 := by
        simp [reorderRun, h0, h1]
      rw [hrun, hroll]
      show (applyEnableFk d (rollbackS (commitS (applyDisableFk d st0)))).txn
        = st0.db
      rw [applyEnableFk_txn]
      show (applyDisableFk d st0).txn = st0.db
      rw [applyDisableFk_txn, hsync]

/-- Witness for C2: a lock fault injected at the episode query (step 4)
of a one-episode source fails the run and leaves the committed rows
untouched. -/
theorem reorder_fault_atomic_witness :
    (reorderRun .mysql 1 (some 4) atomicWitnessState).2.db
      = atomicWitnessState.db :=
  reorder_fault_atomic .mysql 1 (some 4) atomicWitnessState rfl (by decide)

/-- Counterexample to C3 as stated: on MySQL, a fault at the commit that
immediately follows the `SET FOREIGN_KEY_CHECKS=0` statement (tasks.py
line 728, before the `try`/`finally` that restores the switch) makes the
job raise with integrity checking still disabled. -/
theorem reorder_fk_left_disabled_cex :
    (reorderRun .mysql 1 (some 1) fkCexState).1 = .failed ∧
      (reorderRun .mysql 1 (some 1) fkCexState).2.fkChecksEnabled = false := by
  constructor <;> rfl

/-- C3 amended: on every exit path of the reorder job except a fault at
the prologue commit right after disabling (the fallible step numbered 1,
which precedes the `try`/`finally`), the job terminates with referential
integrity checking enabled again. -/
theorem reorder_fk_restored (d : Dialect) (sid : Nat) (failAt : Option Nat)
    (st0 : SessionState) (hfk : st0.fkChecksEnabled = true)
    (h1 : failAt ≠ some 1) :
    (reorderRun d sid failAt st0).2.fkChecksEnabled = true := by
  unfold reorderRun
  split
  · exact hfk
  · split
    · rename_i hh
      exfalso
      apply h1
      simpa [hits] using hh
    · simp only [reorderFinally]
      cases d with
      | mysql => rfl
      | postgres => rfl
      | other =>
        have hx : ∀ y : SessionState,
            (commitS (applyEnableFk .other y)).fkChecksEnabled
              = y.fkChecksEnabled := fun _ => rfl
        rw [hx, reorderInner_fk]
        exact hfk

/-- Witness for the amended C3: a fault at the source-info query still
ends with integrity checking enabled. -/
theorem reorder_fk_restored_witness :
    (reorderRun .mysql 1 (some 2) fkCexState).2.fkChecksEnabled = true :=
  reorder_fk_restored .mysql 1 (some 2) fkCexState rfl (by decide)

theorem hits_none (k : Nat) : hits none k = false := rfl

theorem renameFaultHits_none (a so base : Nat) (eps : List EpisodeRow) :
    renameFaultHits a so none base eps = false := rfl

theorem epCorrect_iff (a so j : Nat) (e : EpisodeRow) :
    epCorrect a so j e = true ↔
      e.id = newEpisodeId a so j ∧ e.episodeIndex = j := by
  simp [epCorrect]

theorem targetListAux_cons (a so i : Nat) (e : EpisodeRow)
    (rest : List EpisodeRow) :
    targetListAux a so i (e :: rest) =
      (if epCorrect a so (i + 1) e then e else targetRow a so (i + 1) e)
        :: targetListAux a so (i + 1) rest := rfl

theorem targetListAux_length (a so : Nat) (l : List EpisodeRow) (i : Nat) :
    (targetListAux a so i l).length = l.length := by
  induction l generalizing i with
  | nil => rfl
  | cons e rest ih =>
    rw [targetListAux_cons]
    simp [ih]

theorem targetListAux_get (a so : Nat) (l : List EpisodeRow) :
    ∀ (i k : Nat) (hk : k < (targetListAux a so i l).length),
      ((targetListAux a so i l).get ⟨k, hk⟩).episodeIndex = i + k + 1
      ∧ ((targetListAux a so i l).get ⟨k, hk⟩).id
          = newEpisodeId a so (i + k + 1) := by
  induction l with
  | nil =>
    intro i k hk
    simp [targetListAux] at hk
  | cons e rest ih =>
    intro i k hk
    cases k with
    | zero =>
      constructor
      · show (if epCorrect a so (i + 1) e then e
            else targetRow a so (i + 1) e).episodeIndex = i + 0 + 1
        by_cases hc : epCorrect a so (i + 1) e = true
        · rw [if_pos hc, ((epCorrect_iff a so (i + 1) e).mp hc).2]
        · rw [if_neg hc]
          rfl
      · show (if epCorrect a so (i + 1) e then e
            else targetRow a so (i + 1) e).id = newEpisodeId a so (i + 0 + 1)
        have h01 : i + 0 + 1 = i + 1 := by omega
        rw [h01]
        by_cases hc : epCorrect a so (i + 1) e = true
        · rw [if_pos hc, ((epCorrect_iff a so (i + 1) e).mp hc).1]
        · rw [if_neg hc]
          rfl
    | succ q =>
      have hlen1 : (targetListAux a so i (e :: rest)).length
          = rest.length + 1 := by
        rw [targetListAux_length]
        rfl
      have hlen2 : (targetListAux a so (i + 1) rest).length = rest.length :=
        targetListAux_length a so rest (i + 1)
      have hq : q < (targetListAux a so (i + 1) rest).length := by omega
      constructor
      · show ((targetListAux a so (i + 1) rest).get ⟨q, hq⟩).episodeIndex
            = i + (q + 1) + 1
        rw [(ih (i + 1) q hq).1]
        omega
      · show ((targetListAux a so (i + 1) rest).get ⟨q, hq⟩).id
            = newEpisodeId a so (i + (q + 1) + 1)
        rw [(ih (i + 1) q hq).2]
        have harith : i + 1 + q + 1 = i + (q + 1) + 1 := by omega
        rw [harith]

theorem targetListAux_correct (a so : Nat) (l : List EpisodeRow) (i k : Nat)
    (hk : k < (targetListAux a so i l).length) :
    epCorrect a so (i + k + 1) ((targetListAux a so i l).get ⟨k, hk⟩)
      = true := by
  have h := targetListAux_get a so l i k hk
  exact (epCorrect_iff a so (i + k + 1) _).mpr ⟨h.2, h.1⟩

theorem targetListAux_pairwise (a so : Nat) (l : List EpisodeRow) (i : Nat) :
    List.Pairwise epIdxLt (targetListAux a so i l) := by
  rw [List.pairwise_iff_get]
  intro p q hpq
  have hp := (targetListAux_get a so l i p.1 p.2).1
  have hq := (targetListAux_get a so l i q.1 q.2).1
  unfold epIdxLt
  rw [hp, hq]
  have : p.1 < q.1 := hpq
  omega

theorem stagePlanAux_cons (a so i : Nat) (e : EpisodeRow)
    (rest : List EpisodeRow) :
    stagePlanAux a so i (e :: rest) =
      if epCorrect a so (i + 1) e
      then stagePlanAux a so (i + 1) rest
      else (e :: (stagePlanAux a so (i + 1) rest).1,
            targetRow a so (i + 1) e :: (stagePlanAux a so (i + 1) rest).2) :=
  rfl

theorem stagePlanAux_dels_sublist (a so : Nat) (l : List EpisodeRow) :
    ∀ i : Nat, ((stagePlanAux a so i l).1).Sublist l := by
  induction l with
  | nil =>
    intro i
    simp [stagePlanAux]
  | cons e rest ih =>
    intro i
    rw [stagePlanAux_cons]
    by_cases hc : epCorrect a so (i + 1) e = true
    · rw [if_pos hc]
      exact (ih (i + 1)).cons e
    · rw [if_neg hc]
      exact (ih (i + 1)).cons₂ e

theorem stagePlanAux_adds_sourceId (a so s : Nat) (l : List EpisodeRow) :
    ∀ i : Nat, (∀ e ∈ l, e.sourceId = s) →
      ∀ r ∈ (stagePlanAux a so i l).2, r.sourceId = s := by
  induction l with
  | nil =>
    intro i _ r hr
    simp [stagePlanAux] at hr
  | cons e rest ih =>
    intro i hall r hr
    rw [stagePlanAux_cons] at hr
    by_cases hc : epCorrect a so (i + 1) e = true
    · rw [if_pos hc] at hr
      exact ih (i + 1) (fun x hx => hall x (List.mem_cons_of_mem e hx)) r hr
    · rw [if_neg hc] at hr
      have hr' : r ∈ targetRow a so (i + 1) e
          :: (stagePlanAux a so (i + 1) rest).2 := hr
      rcases List.mem_cons.mp hr' with hr2 | hr2
      · rw [hr2]
        show e.sourceId = s
        exact hall e (List.mem_cons_self e rest)
      · exact ih (i + 1) (fun x hx => hall x (List.mem_cons_of_mem e hx)) r hr2

theorem stage_apply_perm (a so : Nat) (l : List EpisodeRow) :
    ∀ i : Nat, (l.map (fun e => e.id)).Nodup →
      ((l.filter (fun r => (stagePlanAux a so i l).1.all
          (fun d => !(d.id == r.id)))) ++ (stagePlanAux a so i l).2).Perm
        (targetListAux a so i l) := by
  induction l with
  | nil =>
    intro i _
    simp [stagePlanAux, targetListAux]
  | cons e rest ih =>
    intro i hnd
    have hnd' : (e.id :: rest.map (fun x => x.id)).Nodup := by simpa using hnd
    have heid : e.id ∉ rest.map (fun x => x.id) := (List.nodup_cons.mp hnd').1
    have hndrest : (rest.map (fun x => x.id)).Nodup := (List.nodup_cons.mp hnd').2
    by_cases hc : epCorrect a so (i + 1) e = true
    · have hplan : stagePlanAux a so i (e :: rest)
          = stagePlanAux a so (i + 1) rest := by
        rw [stagePlanAux_cons, if_pos hc]
      rw [hplan, targetListAux_cons, if_pos hc]
      have hpe : (stagePlanAux a so (i + 1) rest).1.all
          (fun d => !(d.id == e.id)) = true := by
        rw [List.all_eq_true]
        intro d hd
        have hdrest : d ∈ rest :=
          (stagePlanAux_dels_sublist a so rest (i + 1)).subset hd
        have hmem : d.id ∈ rest.map (fun x => x.id) :=
          List.mem_map_of_mem _ hdrest
        have hne : d.id ≠ e.id := fun he => heid (he ▸ hmem)
        simp [hne]
      have hfc : (e :: rest).filter
            (fun r => (stagePlanAux a so (i + 1) rest).1.all
              (fun d => !(d.id == r.id)))
          = e :: rest.filter
            (fun r => (stagePlanAux a so (i + 1) rest).1.all
              (fun d => !(d.id == r.id))) := by
        simp [List.filter_cons, hpe]
      rw [hfc]
      exact (ih (i + 1) hndrest).cons e
    · have hplan : stagePlanAux a so i (e :: rest)
          = (e :: (stagePlanAux a so (i + 1) rest).1,
             targetRow a so (i + 1) e :: (stagePlanAux a so (i + 1) rest).2) := by
        rw [stagePlanAux_cons, if_neg hc]
      rw [hplan, targetListAux_cons, if_neg hc]
      have hpe : ((e :: (stagePlanAux a so (i + 1) rest).1).all
          (fun d => !(d.id == e.id))) = false := by
        simp
      have hfc : (e :: rest).filter
            (fun r => (e :: (stagePlanAux a so (i + 1) rest).1).all
              (fun d => !(d.id == r.id)))
          = rest.filter
            (fun r => (e :: (stagePlanAux a so (i + 1) rest).1).all
              (fun d => !(d.id == r.id))) := by
        simp [List.filter_cons, hpe]
      rw [hfc]
      have hfeq : rest.filter (fun r => (e :: (stagePlanAux a so (i + 1) rest).1).all
            (fun d => !(d.id == r.id)))
          = rest.filter (fun r => (stagePlanAux a so (i + 1) rest).1.all
            (fun d => !(d.id == r.id))) := by
        apply List.filter_congr
        intro r hr
        have hne : ¬ (e.id = r.id) := by
          intro he
          apply heid
          rw [he]
          exact List.mem_map_of_mem _ hr
        simp [hne]
      rw [hfeq]
      exact List.perm_middle.trans ((ih (i + 1) hndrest).cons _)

theorem stagePlanAux_dels_nil (a so : Nat) (l : List EpisodeRow) :
    ∀ i : Nat, (stagePlanAux a so i l).1 = [] →
      targetListAux a so i l = l := by
  induction l with
  | nil =>
    intro i _
    rfl
  | cons e rest ih =>
    intro i h
    by_cases hc : epCorrect a so (i + 1) e = true
    · have hplan : stagePlanAux a so i (e :: rest)
          = stagePlanAux a so (i + 1) rest := by
        rw [stagePlanAux_cons, if_pos hc]
      rw [hplan] at h
      rw [targetListAux_cons, if_pos hc, ih (i + 1) h]
    · exfalso
      have hplan : (stagePlanAux a so i (e :: rest)).1
          = e :: (stagePlanAux a so (i + 1) rest).1 := by
        rw [stagePlanAux_cons, if_neg hc]
      rw [hplan] at h
      simp at h

theorem all_correct_dels_nil (a so : Nat) (l : List EpisodeRow) :
    ∀ i : Nat,
      (∀ k (hk : k < l.length), epCorrect a so (i + k + 1) (l.get ⟨k, hk⟩) = true) →
      (stagePlanAux a so i l).1 = [] := by
  induction l with
  | nil =>
    intro i _
    rfl
  | cons e rest ih =>
    intro i hall
    have hc : epCorrect a so (i + 1) e = true := by
      have h0 := hall 0 (by simp)
      simpa using h0
    have htail : (stagePlanAux a so (i + 1) rest).1 = [] := by
      apply ih (i + 1)
      intro k hk
      have hk' : k + 1 < (e :: rest).length := by
        simp
        omega
      have h1 := hall (k + 1) hk'
      have harith : i + (k + 1) + 1 = i + 1 + k + 1 := by omega
      rw [harith] at h1
      exact h1
    rw [stagePlanAux_cons, if_pos hc, htail]

theorem sortedEpisodes_sourceId (db : DbState) (sid : Nat) :
    ∀ e ∈ sortedEpisodes db sid, e.sourceId = sid := by
  intro e he
  unfold sortedEpisodes at he
  have h1 : e ∈ db.episodes.filter (fun x => x.sourceId == sid) :=
    (List.perm_insertionSort epLe _).mem_iff.mp he
  have h2 := List.of_mem_filter h1
  simpa using h2

theorem sortedEpisodes_nodup_id (db : DbState) (sid : Nat)
    (hnd : (db.episodes.map (fun e => e.id)).Nodup) :
    ((sortedEpisodes db sid).map (fun e => e.id)).Nodup := by
  have hperm : (sortedEpisodes db sid).Perm
      (db.episodes.filter (fun x => x.sourceId == sid)) :=
    List.perm_insertionSort epLe _
  have hsub : ((db.episodes.filter (fun x => x.sourceId == sid)).map
      (fun e => e.id)).Sublist (db.episodes.map (fun e => e.id)) :=
    (List.filter_sublist _).map _
  exact ((hperm.map (fun e => e.id)).nodup_iff).mpr
    (List.Nodup.sublist hsub hnd)

/-- Applying the staged deletions and insertions to the committed table
and re-running the source's ordered episode query yields exactly the
target row sequence of the staging loop. -/
theorem sortedEpisodes_applyStage (db : DbState) (sid a so : Nat)
    (hnd : (db.episodes.map (fun e => e.id)).Nodup) :
    sortedEpisodes (applyStage (stagePlan a so (sortedEpisodes db sid)) db) sid
      = targetListAux a so 0 (sortedEpisodes db sid) := by
  have hfeq : (applyStage (stagePlan a so (sortedEpisodes db sid))
        db).episodes.filter (fun e => e.sourceId == sid)
      = ((db.episodes.filter (fun e => e.sourceId == sid)).filter
          (fun r => (stagePlan a so (sortedEpisodes db sid)).1.all
            (fun d => !(d.id == r.id))))
        ++ (stagePlan a so (sortedEpisodes db sid)).2 := by
    show ((db.episodes.filter
          (fun r => (stagePlan a so (sortedEpisodes db sid)).1.all
            (fun d => !(d.id == r.id))))
        ++ (stagePlan a so (sortedEpisodes db sid)).2).filter
          (fun e => e.sourceId == sid) = _
    rw [List.filter_append]
    congr 1
    · rw [List.filter_filter, List.filter_filter]
      apply List.filter_congr
      intro x _
      exact Bool.and_comm _ _
    · rw [List.filter_eq_self]
      intro r hr
      have hs := stagePlanAux_adds_sourceId a so sid (sortedEpisodes db sid) 0
        (sortedEpisodes_sourceId db sid) r hr
      simp [hs]
  have hpermF : ((applyStage (stagePlan a so (sortedEpisodes db sid))
        db).episodes.filter (fun e => e.sourceId == sid)).Perm
      (targetListAux a so 0 (sortedEpisodes db sid)) := by
    rw [hfeq]
    have h1 : ((db.episodes.filter (fun e => e.sourceId == sid)).filter
          (fun r => (stagePlan a so (sortedEpisodes db sid)).1.all
            (fun d => !(d.id == r.id)))).Perm
        ((sortedEpisodes db sid).filter
          (fun r => (stagePlan a so (sortedEpisodes db sid)).1.all
            (fun d => !(d.id == r.id)))) :=
      ((List.perm_insertionSort epLe _).symm).filter _
    refine (List.Perm.append_right _ h1).trans ?_
    exact stage_apply_perm a so (sortedEpisodes db sid) 0
      (sortedEpisodes_nodup_id db sid hnd)
  have hperm2 : (sortedEpisodes (applyStage
        (stagePlan a so (sortedEpisodes db sid)) db) sid).Perm
      (targetListAux a so 0 (sortedEpisodes db sid)) :=
    (List.perm_insertionSort epLe _).trans hpermF
  have hsorted_tgt : List.Pairwise epIdxLt
      (targetListAux a so 0 (sortedEpisodes db sid)) :=
    targetListAux_pairwise a so (sortedEpisodes db sid) 0
  have hsorted_le : List.Pairwise epLe (sortedEpisodes (applyStage
      (stagePlan a so (sortedEpisodes db sid)) db) sid) :=
    List.sorted_insertionSort epLe _
  have hidx_tgt : List.Pairwise (fun x y : Nat => x < y)
      ((targetListAux a so 0 (sortedEpisodes db sid)).map
        (fun e => e.episodeIndex)) := by
    rw [List.pairwise_map]
    exact hsorted_tgt
  have hnd_tgt : ((targetListAux a so 0 (sortedEpisodes db sid)).map
      (fun e => e.episodeIndex)).Nodup :=
    hidx_tgt.imp (fun h => Nat.ne_of_lt h)
  have hnd_left : ((sortedEpisodes (applyStage
      (stagePlan a so (sortedEpisodes db sid)) db) sid).map
        (fun e => e.episodeIndex)).Nodup :=
    ((hperm2.map (fun e => e.episodeIndex)).nodup_iff).mpr hnd_tgt
  have hne_left : List.Pairwise
      (fun x y : EpisodeRow => x.episodeIndex ≠ y.episodeIndex)
      (sortedEpisodes (applyStage
        (stagePlan a so (sortedEpisodes db sid)) db) sid) :=
    List.pairwise_map.mp hnd_left
  have hsorted_left : List.Pairwise epIdxLt
      (sortedEpisodes (applyStage
        (stagePlan a so (sortedEpisodes db sid)) db) sid) := by
    refine (hsorted_le.and hne_left).imp ?_
    intro x y hxy
    rcases hxy with ⟨hle, hne⟩
    unfold epLe at hle
    unfold epIdxLt
    rcases hle with h | h
    · exact h
    · exact absurd h.1 hne
  exact List.eq_of_perm_of_sorted hperm2 hsorted_left hsorted_tgt

/-- In both transactional states commit and rollback leave `finally`'s
output with working state equal to committed state. -/
theorem reorderFinally_sync (d : Dialect) (st : SessionState) :
    (reorderFinally d st).txn = (reorderFinally d st).db := rfl

/-- The inner block of a fault-free run, unfolded to its three possible
exits. -/
theorem reorderInner_none (sid : Nat) (st : SessionState) (a rank : Nat)
    (hsrc : getAnimeSourceInfo st.txn sid = some a)
    (hrank : (sortedSourceIds st.txn a).indexOf? sid = some rank) :
    reorderInner sid none st =
      (if (sortedEpisodes st.txn sid).isEmpty
       then (.noopNoEpisodes, rollbackS st)
       else if (stagePlan a (rank + 1) (sortedEpisodes st.txn sid)).1.isEmpty
       then (.noopAllCorrect, rollbackS st)
       else (.successMigrated
              (stagePlan a (rank + 1) (sortedEpisodes st.txn sid)).2.length,
             rollbackS (commitS { st with
               txn := applyStage
                 (stagePlan a (rank + 1) (sortedEpisodes st.txn sid))
                 st.txn }))) := by
  simp [reorderInner, hits_none, hsrc, hrank, renameFaultHits_none]

/-- After a fault-free run on a well-formed source, the committed episode
rows of the source, re-read in query order, are exactly the staging
loop's target sequence; the sources table is untouched and the session
ends in sync. -/
theorem reorder_none_db (d : Dialect) (sid a rank : Nat)
    (st0 : SessionState)
    (hsync : st0.txn = st0.db)
    (hsrc : getAnimeSourceInfo st0.db sid = some a)
    (hrank : (sortedSourceIds st0.db a).indexOf? sid = some rank)
    (hnd : (st0.db.episodes.map (fun e => e.id)).Nodup) :
    sortedEpisodes (reorderRun d sid none st0).2.db sid
        = targetListAux a (rank + 1) 0 (sortedEpisodes st0.db sid)
      ∧ (reorderRun d sid none st0).2.db.sources = st0.db.sources
      ∧ (reorderRun d sid none st0).2.txn = (reorderRun d sid none st0).2.db := by
  have hst2txn : (commitS (applyDisableFk d st0)).txn = st0.db := by
    show (applyDisableFk d st0).txn = st0.db
    rw [applyDisableFk_txn, hsync]
  have hrun : reorderRun d sid none st0
      = ((reorderInner sid none (commitS (applyDisableFk d st0))).1,
         reorderFinally d
           (reorderInner sid none (commitS (applyDisableFk d st0))).2) := by
    simp [reorderRun, hits_none]
  have hinner := reorderInner_none sid (commitS (applyDisableFk d st0)) a rank
    (by rw [hst2txn]; exact hsrc) (by rw [hst2txn]; exact hrank)
  rw [hst2txn] at hinner
  by_cases hemp : (sortedEpisodes st0.db sid).isEmpty = true
  · rw [if_pos hemp] at hinner
    have hfin : (reorderRun d sid none st0).2
        = reorderFinally d (rollbackS (commitS (applyDisableFk d st0))) := by
      rw [hrun, hinner]
    have hdb : (reorderFinally d
        (rollbackS (commitS (applyDisableFk d st0)))).db = st0.db := by
      show (applyEnableFk d
        (rollbackS (commitS (applyDisableFk d st0)))).txn = st0.db
      rw [applyEnableFk_txn]
      show (applyDisableFk d st0).txn = st0.db
      rw [applyDisableFk_txn, hsync]
    refine ⟨?_, ?_, ?_⟩
    · rw [hfin, hdb]
      have heps : sortedEpisodes st0.db sid = [] := List.isEmpty_iff.mp hemp
      rw [heps]
      rfl
    · rw [hfin, hdb]
    · rw [hfin]
      exact reorderFinally_sync d _
  · by_cases hplan : (stagePlan a (rank + 1)
        (sortedEpisodes st0.db sid)).1.isEmpty = true
    · rw [if_neg hemp, if_pos hplan] at hinner
      have hfin : (reorderRun d sid none st0).2
          = reorderFinally d (rollbackS (commitS (applyDisableFk d st0))) := by
        rw [hrun, hinner]
      have hdb : (reorderFinally d
          (rollbackS (commitS (applyDisableFk d st0)))).db = st0.db := by
        show (applyEnableFk d
          (rollbackS (commitS (applyDisableFk d st0)))).txn = st0.db
        rw [applyEnableFk_txn]
        show (applyDisableFk d st0).txn = st0.db
        rw [applyDisableFk_txn, hsync]
      refine ⟨?_, ?_, ?_⟩
      · rw [hfin, hdb]
        have hnil : (stagePlanAux a (rank + 1) 0
            (sortedEpisodes st0.db sid)).1 = [] := List.isEmpty_iff.mp hplan
        rw [stagePlanAux_dels_nil a (rank + 1) (sortedEpisodes st0.db sid) 0
          hnil]
      · rw [hfin, hdb]
      · rw [hfin]
        exact reorderFinally_sync d _
    · rw [if_neg hemp, if_neg hplan] at hinner
      have hfin : (reorderRun d sid none st0).2
          = reorderFinally d (rollbackS (commitS
              { commitS (applyDisableFk d st0) with
                txn := applyStage
                  (stagePlan a (rank + 1) (sortedEpisodes st0.db sid))
                  st0.db })) := by
        rw [hrun, hinner]
      have hdb : (reorderFinally d (rollbackS (commitS
            { commitS (applyDisableFk d st0) with
              txn := applyStage
                (stagePlan a (rank + 1) (sortedEpisodes st0.db sid))
                st0.db }))).db
          = applyStage (stagePlan a (rank + 1) (sortedEpisodes st0.db sid))
              st0.db := by
        rw [show ∀ y : SessionState, (reorderFinally d y).db
              = (applyEnableFk d y).txn from fun _ => rfl]
        rw [applyEnableFk_txn]
        rfl
      refine ⟨?_, ?_, ?_⟩
      · rw [hfin, hdb]
        exact sortedEpisodes_applyStage st0.db sid a (rank + 1) hnd
      · rw [hfin, hdb]
        rfl
      · rw [hfin]
        exact reorderFinally_sync d _

/-- The outcome of a fault-free run on a well-formed source: empty
no-op, all-correct no-op, or success with the migrated count. -/
theorem reorder_none_outcome (d : Dialect) (sid a rank : Nat)
    (st0 : SessionState)
    (hsync : st0.txn = st0.db)
    (hsrc : getAnimeSourceInfo st0.db sid = some a)
    (hrank : (sortedSourceIds st0.db a).indexOf? sid = some rank) :
    (reorderRun d sid none st0).1 =
      (if (sortedEpisodes st0.db sid).isEmpty
       then ReorderOutcome.noopNoEpisodes
       else if (stagePlan a (rank + 1) (sortedEpisodes st0.db sid)).1.isEmpty
       then ReorderOutcome.noopAllCorrect
       else ReorderOutcome.successMigrated
         (stagePlan a (rank + 1) (sortedEpisodes st0.db sid)).2.length) := by
  have hst2txn : (commitS (applyDisableFk d st0)).txn = st0.db := by
    show (applyDisableFk d st0).txn = st0.db
    rw [applyDisableFk_txn, hsync]
  have hrun : reorderRun d sid none st0
      = ((reorderInner sid none (commitS (applyDisableFk d st0))).1,
         reorderFinally d
           (reorderInner sid none (commitS (applyDisableFk d st0))).2) := by
    simp [reorderRun, hits_none]
  have hinner := reorderInner_none sid (commitS (applyDisableFk d st0)) a rank
    (by rw [hst2txn]; exact hsrc) (by rw [hst2txn]; exact hrank)
  rw [hst2txn] at hinner
  by_cases hemp : (sortedEpisodes st0.db sid).isEmpty = true
  · rw [if_pos hemp] at hinner
    rw [hrun, hinner, if_pos hemp]
  · by_cases hplan : (stagePlan a (rank + 1)
        (sortedEpisodes st0.db sid)).1.isEmpty = true
    · rw [if_neg hemp, if_pos hplan] at hinner
      rw [hrun, hinner, if_neg hemp, if_pos hplan]
    · rw [if_neg hemp, if_neg hplan] at hinner
      rw [hrun, hinner, if_neg hemp, if_neg hplan]

/-- C1: after a fault-free reorder run on a well-formed source, the
episode at 1-based position `k + 1` of the source's ordered episode list
carries identity `int("25" ++ pad6(animeId) ++ pad2(sourceOrder) ++
pad4(k+1))` — `newEpisodeId`, the decimal reading of the concatenated
zero-padded fields — and index `k + 1`; the identity is the pure function
`newEpisodeId` of (work id, source order, episode index). -/
theorem reorder_episode_identity (d : Dialect) (sid a rank : Nat)
    (st0 : SessionState)
    (hsync : st0.txn = st0.db)
    (hsrc : getAnimeSourceInfo st0.db sid = some a)
    (hrank : (sortedSourceIds st0.db a).indexOf? sid = some rank)
    (hnd : (st0.db.episodes.map (fun e => e.id)).Nodup) :
    ∀ k (hk : k < (sortedEpisodes (reorderRun d sid none st0).2.db
        sid).length),
      ((sortedEpisodes (reorderRun d sid none st0).2.db sid).get
          ⟨k, hk⟩).id = newEpisodeId a (rank + 1) (k + 1)
      ∧ ((sortedEpisodes (reorderRun d sid none st0).2.db sid).get
          ⟨k, hk⟩).episodeIndex = k + 1 := by
  intro k hk
  have hm := (reorder_none_db d sid a rank st0 hsync hsrc hrank hnd).1
  have hk' : k < (targetListAux a (rank + 1) 0
      (sortedEpisodes st0.db sid)).length := by
    rw [← hm]
    exact hk
  have hget : (sortedEpisodes (reorderRun d sid none st0).2.db sid).get
        ⟨k, hk⟩
      = (targetListAux a (rank + 1) 0 (sortedEpisodes st0.db sid)).get
        ⟨k, hk'⟩ :=
    List.get_of_eq hm ⟨k, hk⟩
  have htgt := targetListAux_get a (rank + 1) (sortedEpisodes st0.db sid)
    0 k hk'
  have h0k : 0 + k + 1 = k + 1 := by omega
  constructor
  · rw [hget, htgt.2, h0k]
  · rw [hget, htgt.1, h0k]

/-- Witness for C1 at a concrete run. -/
theorem reorder_episode_identity_witness :
    ∃ hk : 0 < (sortedEpisodes
        (reorderRun .mysql 1 none identityWitnessState).2.db 1).length,
      ((sortedEpisodes (reorderRun .mysql 1 none identityWitnessState).2.db
          1).get ⟨0, hk⟩).id = newEpisodeId 5 1 1
      ∧ ((sortedEpisodes (reorderRun .mysql 1 none
          identityWitnessState).2.db 1).get ⟨0, hk⟩).episodeIndex = 1 :=
  ⟨by decide,
   reorder_episode_identity .mysql 1 5 0 identityWitnessState rfl
     (by decide) (by decide) (by decide) 0 (by decide)⟩

/-- C4: on a well-formed source, (a) if every episode already carries the
target identity and the gap-free 1-based index, the fault-free reorder run
reports the all-correct no-op (zero migrated); (b) whatever the first
fault-free run did, a second fault-free run right after it is a no-op. -/
theorem reorder_noop_idempotent (d : Dialect) (sid a rank : Nat)
    (st0 : SessionState)
    (hsync : st0.txn = st0.db)
    (hsrc : getAnimeSourceInfo st0.db sid = some a)
    (hrank : (sortedSourceIds st0.db a).indexOf? sid = some rank)
    (hnd : (st0.db.episodes.map (fun e => e.id)).Nodup) :
    (sortedEpisodes st0.db sid ≠ [] →
      (∀ k (hk : k < (sortedEpisodes st0.db sid).length),
          epCorrect a (rank + 1) (k + 1)
            ((sortedEpisodes st0.db sid).get ⟨k, hk⟩) = true) →
      (reorderRun d sid none st0).1 = ReorderOutcome.noopAllCorrect)
    ∧ ((reorderRun d sid none (reorderRun d sid none st0).2).1
          = ReorderOutcome.noopAllCorrect
        ∨ (reorderRun d sid none (reorderRun d sid none st0).2).1
          = ReorderOutcome.noopNoEpisodes) := by
  have hm := reorder_none_db d sid a rank st0 hsync hsrc hrank hnd
  constructor
  · intro hne hall
    have hall' : ∀ k (hk : k < (sortedEpisodes st0.db sid).length),
        epCorrect a (rank + 1) (0 + k + 1)
          ((sortedEpisodes st0.db sid).get ⟨k, hk⟩) = true := by
      intro k hk
      rw [Nat.zero_add]
      exact hall k hk
    have hdels : (stagePlanAux a (rank + 1) 0
        (sortedEpisodes st0.db sid)).1 = [] :=
      all_correct_dels_nil a (rank + 1) (sortedEpisodes st0.db sid) 0 hall'
    have hempf : ¬ ((sortedEpisodes st0.db sid).isEmpty = true) := by
      intro h
      exact hne (List.isEmpty_iff.mp h)
    rw [reorder_none_outcome d sid a rank st0 hsync hsrc hrank,
      if_neg hempf]
    have hplt : (stagePlan a (rank + 1)
        (sortedEpisodes st0.db sid)).1.isEmpty = true := by
      rw [List.isEmpty_iff]
      exact hdels
    rw [if_pos hplt]
  · have hsrc2 : getAnimeSourceInfo (reorderRun d sid none st0).2.db sid
        = some a := by
      have he : getAnimeSourceInfo (reorderRun d sid none st0).2.db sid
          = getAnimeSourceInfo st0.db sid := by
        unfold getAnimeSourceInfo
        rw [hm.2.1]
      rw [he]
      exact hsrc
    have hrank2 : (sortedSourceIds (reorderRun d sid none st0).2.db
        a).indexOf? sid = some rank := by
      have he : sortedSourceIds (reorderRun d sid none st0).2.db a
          = sortedSourceIds st0.db a := by
        unfold sortedSourceIds
        rw [hm.2.1]
      rw [he]
      exact hrank
    rw [reorder_none_outcome d sid a rank (reorderRun d sid none st0).2
      hm.2.2 hsrc2 hrank2]
    by_cases hemp2 : (sortedEpisodes (reorderRun d sid none st0).2.db
        sid).isEmpty = true
    · right
      rw [if_pos hemp2]
    · left
      rw [if_neg hemp2]
      have hall2 : ∀ k (hk : k < (sortedEpisodes
          (reorderRun d sid none st0).2.db sid).length),
          epCorrect a (rank + 1) (0 + k + 1)
            ((sortedEpisodes (reorderRun d sid none st0).2.db sid).get
              ⟨k, hk⟩) = true := by
        intro k hk
        have hk' : k < (targetListAux a (rank + 1) 0
            (sortedEpisodes st0.db sid)).length := by
          rw [← hm.1]
          exact hk
        have hget : (sortedEpisodes (reorderRun d sid none st0).2.db
              sid).get ⟨k, hk⟩
            = (targetListAux a (rank + 1) 0
                (sortedEpisodes st0.db sid)).get ⟨k, hk'⟩ :=
          List.get_of_eq hm.1 ⟨k, hk⟩
        rw [hget]
        exact targetListAux_correct a (rank + 1)
          (sortedEpisodes st0.db sid) 0 k hk'
      have hdels2 : (stagePlanAux a (rank + 1) 0
          (sortedEpisodes (reorderRun d sid none st0).2.db sid)).1 = [] :=
        all_correct_dels_nil a (rank + 1) _ 0 hall2
      have hplt2 : (stagePlan a (rank + 1)
          (sortedEpisodes (reorderRun d sid none st0).2.db
            sid)).1.isEmpty = true := by
        rw [List.isEmpty_iff]
        exact hdels2
      rw [if_pos hplt2]

/-- Witness for C4: a migrating first run followed by a second run that
is a no-op. -/
theorem reorder_noop_idempotent_witness :
    (reorderRun .mysql 1 none
        (reorderRun .mysql 1 none noopWitnessState).2).1
      = ReorderOutcome.noopAllCorrect
    ∨ (reorderRun .mysql 1 none
        (reorderRun .mysql 1 none noopWitnessState).2).1
      = ReorderOutcome.noopNoEpisodes :=
  (reorder_noop_idempotent .mysql 1 5 0 noopWitnessState rfl
    (by decide) (by decide) (by decide)).2

/-- C5: a rate-limit signal while processing episode `i` makes the loop
report `PAUSED` carrying the signal's wait duration, sleep exactly that
long, and then continue as the very same loop at the same `i` with the
same totals, failed count and rate budget — episode `i` is retried (the
next attempt, if any, is `i` again), nothing is skipped and no budget is
consumed. -/
theorem rate_limit_pause_retry (eps : List EpInfo) (outs : List FetchOutcome)
    (i added failed budget w : Nat) (h : i < eps.length) :
    processLoop eps (.rateLimited w :: outs) i added failed budget
      = { processLoop eps outs i added failed budget with
          events := .reportRunning :: .reportPaused w :: .sleep w
            :: (processLoop eps outs i added failed budget).events,
          attempts := i :: (processLoop eps outs i added failed budget).attempts }
    ∧ (outs ≠ [] →
        (processLoop eps outs i added failed budget).attempts.head?
          = some i) := by
  constructor
  · show processLoop eps (.rateLimited w :: outs) i added failed budget = _
    rw [processLoop]
    rw [if_pos h]
  · intro hne
    cases outs with
    | nil => exact absurd rfl hne
    | cons o rest =>
      cases o <;> (rw [processLoop, if_pos h]) <;> (first | rfl | skip)
      case ok n =>
        by_cases hn : n ≠ 0
        · rw [if_pos hn]
          rfl
        · rw [if_neg hn]
          rfl

/-- Witness for C5 at a concrete run. -/
theorem rate_limit_pause_retry_witness :
    (processLoop [procWitnessEp] [.rateLimited 30, .ok 5] 0 0 0 0
        = { processLoop [procWitnessEp] [.ok 5] 0 0 0 0 with
            events := .reportRunning :: .reportPaused 30 :: .sleep 30
              :: (processLoop [procWitnessEp] [.ok 5] 0 0 0 0).events,
            attempts := 0
              :: (processLoop [procWitnessEp] [.ok 5] 0 0 0 0).attempts })
    ∧ (([FetchOutcome.ok 5] : List FetchOutcome) ≠ [] →
        (processLoop [procWitnessEp] [.ok 5] 0 0 0 0).attempts.head?
          = some 0) :=
  rate_limit_pause_retry [procWitnessEp] [.ok 5] 0 0 0 0 30 (by decide)

/-- C6 (code bug): a transport fault while fetching the first (and only)
episode aborts the whole loop through the `NameError` on the unimported
`httpx`, with the failed-episode count still 0 and no further episode
processed — instead of counting the episode as failed and advancing as
the spec describes. -/
theorem transport_fault_aborts :
    (processLoop [transportCexEp] [.transportFault] 0 0 0 0).aborted = true
    ∧ (processLoop [transportCexEp] [.transportFault] 0 0 0 0).failedCount
        = 0
    ∧ (processLoop [transportCexEp] [.transportFault] 0 0 0 0).attempts
        = [0] := by
  refine ⟨?_, ?_, ?_⟩ <;> rfl

theorem hits_self (m : Nat) : hits (some m) m = true := by
  simp [hits]

theorem hits_some_ne (m k : Nat) (h : m ≠ k) : hits (some m) k = false := by
  simp [hits]
  exact h

theorem bulkDeleteAux_fault (ids : List Nat) :
    ∀ (j k : Nat) (db : List EpisodeRow), k < ids.length →
      (bulkDeleteAux (some (j + k)) j ids db).failed = true
      ∧ (bulkDeleteAux (some (j + k)) j ids db).backoffSleeps = []
      ∧ (bulkDeleteAux (some (j + k)) j ids db).attempts
          = List.range' j (k + 1)
      ∧ (bulkDeleteAux (some (j + k)) j ids db).committedEpisodes
          = applyBulkDeletes (ids.take k) db := by
  induction ids with
  | nil =>
    intro j k db hk
    simp at hk
  | cons eid rest ih =>
    intro j k db hk
    cases k with
    | zero =>
      have hh : hits (some (j + 0)) j = true := hits_self j
      rw [bulkDeleteAux]
      rw [if_pos hh]
      refine ⟨rfl, rfl, ?_, rfl⟩
      simp [List.range']
    | succ q =>
      have hh : hits (some (j + (q + 1))) j = false :=
        hits_some_ne (j + (q + 1)) j (by omega)
      rw [bulkDeleteAux, if_neg (by rw [hh]; exact Bool.false_ne_true)]
      have harith : j + (q + 1) = (j + 1) + q := by omega
      have hrec := ih (j + 1) q
        (if (eid :: rest).head? = some eid then
          (if db.any (fun e => e.id == eid)
           then db.filter (fun e => !(e.id == eid)) else db)
         else db) (by simpa using hk)
      rw [harith]
      refine ⟨?_, ?_, ?_, ?_⟩
      · show (bulkDeleteAux (some (j + 1 + q)) (j + 1) rest
          (if db.any (fun e => e.id == eid)
           then db.filter (fun e => !(e.id == eid)) else db)).failed = true
        exact (ih (j + 1) q _ (by simpa using hk)).1
      · show (bulkDeleteAux (some (j + 1 + q)) (j + 1) rest
          (if db.any (fun e => e.id == eid)
           then db.filter (fun e => !(e.id == eid)) else db)).backoffSleeps
            = []
        exact (ih (j + 1) q _ (by simpa using hk)).2.1
      · show j :: (bulkDeleteAux (some (j + 1 + q)) (j + 1) rest
          (if db.any (fun e => e.id == eid)
           then db.filter (fun e => !(e.id == eid)) else db)).attempts
            = List.range' j (q + 1 + 1)
        rw [(ih (j + 1) q _ (by simpa using hk)).2.2.1]
        simp [List.range'_succ]
      · show (bulkDeleteAux (some (j + 1 + q)) (j + 1) rest
          (if db.any (fun e => e.id == eid)
           then db.filter (fun e => !(e.id == eid)) else db)).committedEpisodes
            = applyBulkDeletes ((eid :: rest).take (q + 1)) db
        rw [(ih (j + 1) q _ (by simpa using hk)).2.2.2]
        rfl

/-- C9 amended: when deleting item `k` of the bulk batch raises a
lock-contention fault, the batch aborts as a whole immediately — the item
is not retried and no backoff sleep happens (the bounded
retry-with-backoff exists only in the whole-work deletion task) — while
every episode committed before item `k` remains deleted. -/
theorem bulk_delete_fault_no_retry (ids : List Nat) (db : List EpisodeRow)
    (k : Nat) (hk : k < ids.length) :
    (delete_bulk_episodes ids (some k) db).failed = true
    ∧ (delete_bulk_episodes ids (some k) db).backoffSleeps = []
    ∧ (delete_bulk_episodes ids (some k) db).attempts = List.range (k + 1)
    ∧ (delete_bulk_episodes ids (some k) db).committedEpisodes
        = applyBulkDeletes (ids.take k) db := by
  have h := bulkDeleteAux_fault ids 0 k db hk
  rw [Nat.zero_add] at h
  refine ⟨h.1, h.2.1, ?_, h.2.2.2⟩
  show (bulkDeleteAux (some k) 0 ids db).attempts = List.range (k + 1)
  rw [h.2.2.1, List.range_eq_range']

/-- Counterexample to C9 as stated: with a lock-contention fault at item
1 (the second of two), the batch fails with that item attempted exactly
once and zero backoff sleeps — there is no retry with increasing backoff
in `delete_bulk_episodes_task` — while episode 1, committed before the
fault, stays deleted. -/
theorem bulk_delete_no_retry_cex :
    (delete_bulk_episodes [1, 2] (some 1)
        [bulkCexRow1, bulkCexRow2]).failed = true
    ∧ (delete_bulk_episodes [1, 2] (some 1)
        [bulkCexRow1, bulkCexRow2]).backoffSleeps = []
    ∧ (delete_bulk_episodes [1, 2] (some 1)
        [bulkCexRow1, bulkCexRow2]).attempts.count 1 = 1
    ∧ (delete_bulk_episodes [1, 2] (some 1)
        [bulkCexRow1, bulkCexRow2]).committedEpisodes = [bulkCexRow2] := by
  refine ⟨?_, ?_, ?_, ?_⟩ <;> rfl

/-- Witness for the amended C9 at a concrete batch. -/
theorem bulk_delete_fault_no_retry_witness :
    (delete_bulk_episodes [1, 2] (some 1)
        [bulkCexRow1, bulkCexRow2]).failed = true
    ∧ (delete_bulk_episodes [1, 2] (some 1)
        [bulkCexRow1, bulkCexRow2]).backoffSleeps = []
    ∧ (delete_bulk_episodes [1, 2] (some 1)
        [bulkCexRow1, bulkCexRow2]).attempts = List.range 2
    ∧ (delete_bulk_episodes [1, 2] (some 1)
        [bulkCexRow1, bulkCexRow2]).committedEpisodes
        = applyBulkDeletes (List.take 1 [1, 2])
            [bulkCexRow1, bulkCexRow2] :=
  bulk_delete_fault_no_retry [1, 2] [bulkCexRow1, bulkCexRow2] 1
    (by decide)

theorem insertUnique_mem (x : Int) (l : List Int) (a : Int) :
    a ∈ insertUnique x l ↔ a = x ∨ a ∈ l := by
  induction l with
  | nil => simp [insertUnique]
  | cons y ys ih =>
    unfold insertUnique
    by_cases hxy : x = y
    · subst hxy
      simp
    · rw [if_neg hxy]
      by_cases hlt : x < y
      · rw [if_pos hlt]
        simp
      · rw [if_neg hlt]
        simp [ih]
        tauto

theorem insertUnique_pairwise (x : Int) (l : List Int)
    (h : l.Pairwise (· < ·)) :
    (insertUnique x l).Pairwise (· < ·) := by
  induction l with
  | nil => simp [insertUnique]
  | cons y ys ih =>
    unfold insertUnique
    by_cases hxy : x = y
    · rw [if_pos hxy]
      exact h
    · rw [if_neg hxy]
      by_cases hlt : x < y
      · rw [if_pos hlt]
        refine List.Pairwise.cons ?_ h
        intro b hb
        rcases List.mem_cons.mp hb with hb | hb
        · omega
        · have := (List.pairwise_cons.mp h).1 b hb
          omega
      · rw [if_neg hlt]
        have hyx : y < x := by omega
        rcases List.pairwise_cons.mp h with ⟨hy, hys⟩
        refine List.Pairwise.cons ?_ (ih hys)
        intro b hb
        rcases (insertUnique_mem x ys b).mp hb with hb | hb
        · omega
        · exact hy b hb

theorem dedupSort_pairwise (xs : List Int) :
    (dedupSort xs).Pairwise (· < ·) := by
  induction xs with
  | nil => simp [dedupSort]
  | cons x xs ih => exact insertUnique_pairwise x (dedupSort xs) ih

theorem dedupSort_mem (xs : List Int) (a : Int) :
    a ∈ dedupSort xs ↔ a ∈ xs := by
  induction xs with
  | nil => simp [dedupSort]
  | cons x xs ih =>
    unfold dedupSort
    rw [insertUnique_mem]
    simp [ih]

theorem intRange_self (a : Int) : intRange a a = [a] := by
  unfold intRange
  have h1 : (a + 1 - a).toNat = 1 := by omega
  have h2 : List.range 1 = [0] := rfl
  rw [h1, h2]
  simp

theorem intRange_snoc (a e : Int) (h : a ≤ e + 1) :
    intRange a (e + 1) = intRange a e ++ [e + 1] := by
  unfold intRange
  have h1 : (e + 1 + 1 - a).toNat = (e + 1 - a).toNat + 1 := by omega
  rw [h1, List.range_succ, List.map_append]
  congr 1
  simp
  omega

theorem rangeTokens_eq_map (s e : Int) (l : List Int) :
    rangeTokens s e l = (rangeRuns s e l).map (fun p => tokenStr p.1 p.2) := by
  induction l generalizing s e with
  | nil => rfl
  | cons x rest ih =>
    unfold rangeTokens rangeRuns
    by_cases hx : x = e + 1
    · rw [if_pos hx, if_pos hx, ih]
    · rw [if_neg hx, if_neg hx]
      simp [ih]

theorem rangeRuns_bind (l : List Int) :
    ∀ s e : Int, s ≤ e → (∀ y ∈ l, e < y) → l.Pairwise (· < ·) →
      (rangeRuns s e l).flatMap (fun p => intRange p.1 p.2)
        = intRange s e ++ l := by
  induction l with
  | nil =>
    intro s e _ _ _
    simp [rangeRuns]
  | cons x rest ih =>
    intro s e hse hl hp
    have hex : e < x := hl x (List.mem_cons_self x rest)
    rcases List.pairwise_cons.mp hp with ⟨hx, hrest⟩
    unfold rangeRuns
    by_cases hx1 : x = e + 1
    · rw [if_pos hx1]
      rw [ih s x (by omega) (fun y hy => by
          subst hx1
          exact hx y hy) hrest]
      rw [hx1, intRange_snoc s e (by omega)]
      simp
    · rw [if_neg hx1]
      rw [List.flatMap_cons]
      rw [ih x x le_rfl (fun y hy => hx y hy) hrest]
      rw [intRange_self]
      rfl

theorem rangeRuns_le (l : List Int) :
    ∀ s e : Int, s ≤ e → (∀ y ∈ l, e < y) → l.Pairwise (· < ·) →
      ∀ p ∈ rangeRuns s e l, p.1 ≤ p.2 := by
  induction l with
  | nil =>
    intro s e hse _ _ p hp
    simp [rangeRuns] at hp
    rw [hp]
    exact hse
  | cons x rest ih =>
    intro s e hse hl hp p hmem
    have hex : e < x := hl x (List.mem_cons_self x rest)
    rcases List.pairwise_cons.mp hp with ⟨hx, hrest⟩
    unfold rangeRuns at hmem
    by_cases hx1 : x = e + 1
    · rw [if_pos hx1] at hmem
      exact ih s x (by omega) hx hrest p hmem
    · rw [if_neg hx1] at hmem
      rcases List.mem_cons.mp hmem with hmem | hmem
      · rw [hmem]
        exact hse
      · exact ih x x le_rfl hx hrest p hmem

theorem rangeRuns_head_fst (l : List Int) :
    ∀ s e : Int, ∃ q, (rangeRuns s e l).head? = some (s, q) := by
  induction l with
  | nil =>
    intro s e
    exact ⟨e, rfl⟩
  | cons x rest ih =>
    intro s e
    unfold rangeRuns
    by_cases hx1 : x = e + 1
    · rw [if_pos hx1]
      exact ih s x
    · rw [if_neg hx1]
      exact ⟨e, rfl⟩

theorem rangeRuns_chain (l : List Int) :
    ∀ s e : Int, (∀ y ∈ l, e < y) → l.Pairwise (· < ·) →
      (rangeRuns s e l).Chain' (fun p q => p.2 + 1 < q.1) := by
  induction l with
  | nil =>
    intro s e _ _
    simp [rangeRuns]
  | cons x rest ih =>
    intro s e hl hp
    have hex : e < x := hl x (List.mem_cons_self x rest)
    rcases List.pairwise_cons.mp hp with ⟨hx, hrest⟩
    unfold rangeRuns
    by_cases hx1 : x = e + 1
    · rw [if_pos hx1]
      exact ih s x hx hrest
    · rw [if_neg hx1]
      rw [List.chain'_cons']
      constructor
      · intro b hb
        rcases rangeRuns_head_fst rest x x with ⟨q, hq⟩
        rw [hq] at hb
        have hbq : (x, q) = b := by
          simpa using hb
        rw [← hbq]
        show e + 1 < x
        omega
      · exact ih x x hx hrest

/-- Counterexample to C8 as stated: empty input yields the literal token
`"无"`, not the literal `"none"`. -/
theorem episode_range_none_cex :
    generate_episode_range_string [] = "无"
    ∧ generate_episode_range_string [] ≠ "none" := by
  constructor
  · rfl
  · decide

/-- C8 amended: for every index list, empty input yields the literal
placeholder token `"无"`; nonempty input yields the comma-joined tokens
of a run decomposition of the ascending duplicate-free enumeration of the
input: the runs' closed intervals concatenate exactly to that enumeration
(every distinct input index in exactly one token), each run `(a, b)` has
`a ≤ b` and prints as the bare number when `a = b` and as `"a-b"`
otherwise (`tokenStr`), and consecutive runs are separated by a gap of at
least 2 (runs ascending and maximal).  The spec's example
`{1,2,3,5,8,9,10} → "1-3, 5, 8-10"` holds. -/
theorem episode_range_string_spec (xs : List Int) :
    (xs = [] → generate_episode_range_string xs = "无")
    ∧ (xs ≠ [] →
        ∃ runs : List (Int × Int),
          generate_episode_range_string xs
              = String.intercalate ", "
                  (runs.map (fun p => tokenStr p.1 p.2))
          ∧ runs.flatMap (fun p => intRange p.1 p.2) = dedupSort xs
          ∧ (∀ p ∈ runs, p.1 ≤ p.2)
          ∧ runs.Chain' (fun p q => p.2 + 1 < q.1)
          ∧ (∀ a : Int, a ∈ dedupSort xs ↔ a ∈ xs)
          ∧ (dedupSort xs).Pairwise (· < ·))
    ∧ generate_episode_range_string [1, 2, 3, 5, 8, 9, 10]
        = "1-3, 5, 8-10" := by
  refine ⟨?_, ?_, ?_⟩
  · intro h
    rw [h]
    rfl
  · intro hne
    have hde : dedupSort xs ≠ [] := by
      rcases List.exists_mem_of_ne_nil xs hne with ⟨x0, hx0⟩
      intro hnil
      have := (dedupSort_mem xs x0).mpr hx0
      rw [hnil] at this
      simp at this
    rcases hcons : dedupSort xs with _ | ⟨x, rest⟩
    · exact absurd hcons hde
    · have hpw := dedupSort_pairwise xs
      rw [hcons] at hpw
      rcases List.pairwise_cons.mp hpw with ⟨hx, hrest⟩
      refine ⟨rangeRuns x x rest, ?_, ?_, ?_, ?_, ?_, ?_⟩
      · have hgen : generate_episode_range_string xs
            = String.intercalate ", " (rangeTokens x x rest) := by
          unfold generate_episode_range_string
          rw [if_neg (fun h => hne (List.isEmpty_iff.mp h))]
          rw [hcons]
        rw [hgen, rangeTokens_eq_map]
      · rw [rangeRuns_bind rest x x le_rfl hx hrest, intRange_self]
        rfl
      · exact rangeRuns_le rest x x le_rfl hx hrest
      · exact rangeRuns_chain rest x x hx hrest
      · rw [← hcons]
        exact dedupSort_mem xs
      · exact hpw
  · rfl

/-- Witness for the amended C8 at the spec's own example. -/
theorem episode_range_string_spec_witness :
    ∃ runs : List (Int × Int),
      generate_episode_range_string [1, 2, 3, 5, 8, 9, 10]
          = String.intercalate ", " (runs.map (fun p => tokenStr p.1 p.2))
      ∧ runs.flatMap (fun p => intRange p.1 p.2)
          = dedupSort [1, 2, 3, 5, 8, 9, 10]
      ∧ (∀ p ∈ runs, p.1 ≤ p.2)
      ∧ runs.Chain' (fun p q => p.2 + 1 < q.1)
      ∧ (∀ a : Int, a ∈ dedupSort [1, 2, 3, 5, 8, 9, 10]
          ↔ a ∈ ([1, 2, 3, 5, 8, 9, 10] : List Int))
      ∧ (dedupSort [1, 2, 3, 5, 8, 9, 10]).Pairwise (· < ·) :=
  (episode_range_string_spec [1, 2, 3, 5, 8, 9, 10]).2.1 (by decide)

theorem splitComma_ne_nil (l : List Char) : splitComma l ≠ [] := by
  induction l with
  | nil => simp [splitComma]
  | cons c rest ih =>
    unfold splitComma
    by_cases hc : c = ','
    · simp [hc]
    · rw [if_neg hc]
      cases hr : splitComma rest with
      | nil => simp
      | cons h t => simp

theorem splitComma_comma (rest : List Char) :
    splitComma (',' :: rest) = [] :: splitComma rest := by
  simp [splitComma]

theorem splitComma_cons_ne (c : Char) (rest : List Char)
    (h : List Char) (t : List (List Char)) (hc : c ≠ ',')
    (hr : splitComma rest = h :: t) :
    splitComma (c :: rest) = (c :: h) :: t := by
  unfold splitComma
  rw [if_neg hc, hr]

theorem splitComma_no_comma (l : List Char) :
    ∀ part ∈ splitComma l, ',' ∉ part := by
  induction l with
  | nil =>
    intro part hp
    simp [splitComma] at hp
    simp [hp]
  | cons c rest ih =>
    intro part hp
    by_cases hc : c = ','
    · subst hc
      rw [splitComma_comma] at hp
      rcases List.mem_cons.mp hp with hp | hp
      · simp [hp]
      · exact ih part hp
    · cases hr : splitComma rest with
      | nil => exact absurd hr (splitComma_ne_nil rest)
      | cons h t =>
        rw [splitComma_cons_ne c rest h t hc hr] at hp
        rcases List.mem_cons.mp hp with hp | hp
        · rw [hp]
          intro hmem
          rcases List.mem_cons.mp hmem with hmem | hmem
          · exact hc hmem.symm
          · exact ih h (hr ▸ List.mem_cons_self h t) hmem
        · exact ih part (hr ▸ List.mem_cons_of_mem h hp)

theorem splitComma_of_no_comma (p : List Char) (h : ',' ∉ p) :
    splitComma p = [p] := by
  induction p with
  | nil => rfl
  | cons c rest ih =>
    have hc : c ≠ ',' := fun he => h (he ▸ List.mem_cons_self c rest)
    have hrest : ',' ∉ rest := fun hm => h (List.mem_cons_of_mem c hm)
    rw [splitComma_cons_ne c rest rest [] hc (ih hrest)]

theorem splitComma_front (p : List Char) :
    ∀ s : List Char, ',' ∉ p →
      splitComma (p ++ ',' :: s) = p :: splitComma s := by
  induction p with
  | nil =>
    intro s _
    rw [List.nil_append, splitComma_comma]
  | cons c p' ih =>
    intro s h
    have hc : c ≠ ',' := fun he => h (he ▸ List.mem_cons_self c p')
    have hp' : ',' ∉ p' := fun hm => h (List.mem_cons_of_mem c hm)
    rw [List.cons_append,
      splitComma_cons_ne c (p' ++ ',' :: s) p' (splitComma s) hc (ih s hp')]

theorem joinComma_two (p q : List Char) (t : List (List Char)) :
    joinComma (p :: q :: t) = p ++ ',' :: joinComma (q :: t) := rfl

theorem splitComma_join_front (ps : List (List Char)) :
    ∀ s : List Char, ps ≠ [] → (∀ part ∈ ps, ',' ∉ part) →
      splitComma (joinComma ps ++ ',' :: s) = ps ++ splitComma s := by
  induction ps with
  | nil =>
    intro s hne _
    exact absurd rfl hne
  | cons p rest ih =>
    intro s _ hall
    cases rest with
    | nil =>
      show splitComma (p ++ ',' :: s) = [p] ++ splitComma s
      rw [splitComma_front p s (hall p (List.mem_cons_self p []))]
      rfl
    | cons q t =>
      rw [joinComma_two, List.append_assoc, List.cons_append]
      rw [splitComma_front p (joinComma (q :: t) ++ ',' :: s)
        (hall p (List.mem_cons_self p (q :: t)))]
      rw [ih s (by simp) (fun part hp => hall part (List.mem_cons_of_mem p hp))]
      rfl

theorem escapeChars_ne_nil (s : List Char) (h : s ≠ []) :
    escapeChars s ≠ [] := by
  cases s with
  | nil => exact absurd rfl h
  | cons c cs =>
    unfold escapeChars
    by_cases h1 : c = '&'
    · simp [h1]
    · by_cases h2 : c = '<'
      · simp [h1, h2]
      · by_cases h3 : c = '>'
        · simp [h1, h2, h3]
        · simp [h1, h2, h3]

theorem escapeChars_nil_iff (s : List Char) :
    escapeChars s = [] ↔ s = [] := by
  constructor
  · intro h
    by_contra hne
    exact escapeChars_ne_nil s hne h
  · intro h
    rw [h]
    rfl

theorem unescapeAux_cons (fuel : Nat) (c : Char) (rest : List Char) :
    unescapeAux (fuel + 1) (c :: rest) =
      (if c = '&' ∧ rest.take 4 = ['a', 'm', 'p', ';'] then
        '&' :: unescapeAux fuel (rest.drop 4)
      else if c = '&' ∧ rest.take 3 = ['l', 't', ';'] then
        '<' :: unescapeAux fuel (rest.drop 3)
      else if c = '&' ∧ rest.take 3 = ['g', 't', ';'] then
        '>' :: unescapeAux fuel (rest.drop 3)
      else if c = '&' ∧ rest.take 5 = ['q', 'u', 'o', 't', ';'] then
        '"' :: unescapeAux fuel (rest.drop 5)
      else if c = '&' ∧ rest.take 5 = ['a', 'p', 'o', 's', ';'] then
        '\'' :: unescapeAux fuel (rest.drop 5)
      else c :: unescapeAux fuel rest) := rfl

theorem unescapeAux_escape (fuel : Nat) :
    ∀ s : List Char, (escapeChars s).length ≤ fuel →
      unescapeAux fuel (escapeChars s) = s := by
  induction fuel with
  | zero =>
    intro s hlen
    have h0 : escapeChars s = [] := List.length_eq_zero.mp (by omega)
    have hs : s = [] := (escapeChars_nil_iff s).mp h0
    rw [h0, hs]
    rfl
  | succ fuel ih =>
    intro s hlen
    cases s with
    | nil => rfl
    | cons c cs =>
      by_cases h1 : c = '&'
      · have hesc : escapeChars (c :: cs)
            = '&' :: 'a' :: 'm' :: 'p' :: ';' :: escapeChars cs := by
          simp only [escapeChars]
          rw [if_pos h1]
        rw [hesc] at hlen ⊢
        rw [unescapeAux_cons, if_pos ⟨rfl, rfl⟩]
        rw [h1]
        simp only [List.drop_succ_cons, List.drop_zero]
        rw [ih cs (by simp at hlen; omega)]
      · by_cases h2 : c = '<'
        · have hesc : escapeChars (c :: cs)
              = '&' :: 'l' :: 't' :: ';' :: escapeChars cs := by
            simp only [escapeChars]
            rw [if_neg h1, if_pos h2]
          rw [hesc] at hlen ⊢
          rw [unescapeAux_cons]
          rw [if_neg (by intro hcontra; simpa using hcontra.2)]
          rw [if_pos ⟨rfl, rfl⟩]
          rw [h2]
          simp only [List.drop_succ_cons, List.drop_zero]
          rw [ih cs (by simp at hlen; omega)]
        · by_cases h3 : c = '>'
          · have hesc : escapeChars (c :: cs)
                = '&' :: 'g' :: 't' :: ';' :: escapeChars cs := by
              simp only [escapeChars]
              rw [if_neg h1, if_neg h2, if_pos h3]
            rw [hesc] at hlen ⊢
            rw [unescapeAux_cons]
            rw [if_neg (by intro hcontra; simpa using hcontra.2)]
            rw [if_neg (by intro hcontra; simpa using hcontra.2)]
            rw [if_pos ⟨rfl, rfl⟩]
            rw [h3]
            simp only [List.drop_succ_cons, List.drop_zero]
            rw [ih cs (by simp at hlen; omega)]
          · have hesc : escapeChars (c :: cs) = c :: escapeChars cs := by
              simp only [escapeChars]
              rw [if_neg h1, if_neg h2, if_neg h3]
            rw [hesc] at hlen ⊢
            rw [unescapeAux_cons]
            rw [if_neg (fun hcontra => h1 hcontra.1)]
            rw [if_neg (fun hcontra => h1 hcontra.1)]
            rw [if_neg (fun hcontra => h1 hcontra.1)]
            rw [if_neg (fun hcontra => h1 hcontra.1)]
            rw [if_neg (fun hcontra => h1 hcontra.1)]
            rw [ih cs (by simp at hlen; omega)]

theorem unescapeChars_escape (s : List Char) :
    unescapeChars (escapeChars s) = s :=
  unescapeAux_escape (escapeChars s).length s le_rfl

theorem unescapeAux_no_amp (fuel : Nat) :
    ∀ l : List Char, l.length ≤ fuel → (∀ c ∈ l, ¬ c = '&') →
      unescapeAux fuel l = l := by
  induction fuel with
  | zero =>
    intro l hlen _
    have h0 : l = [] := List.length_eq_zero.mp (by omega)
    rw [h0]
    rfl
  | succ fuel ih =>
    intro l hlen hsafe
    cases l with
    | nil => rfl
    | cons c rest =>
      have hc : ¬ c = '&' := hsafe c (List.mem_cons_self c rest)
      rw [unescapeAux_cons]
      rw [if_neg (fun hcontra => hc hcontra.1)]
      rw [if_neg (fun hcontra => hc hcontra.1)]
      rw [if_neg (fun hcontra => hc hcontra.1)]
      rw [if_neg (fun hcontra => hc hcontra.1)]
      rw [if_neg (fun hcontra => hc hcontra.1)]
      rw [ih rest (by simp at hlen; omega)
        (fun x hx => hsafe x (List.mem_cons_of_mem c hx))]

theorem unescapeChars_no_amp (l : List Char)
    (hsafe : ∀ c ∈ l, ¬ c = '&') : unescapeChars l = l :=
  unescapeAux_no_amp l.length l le_rfl hsafe

theorem map_normAttrChar_id (l : List Char)
    (hsafe : ∀ c ∈ l, attrSafeChar c = true) :
    l.map normAttrChar = l := by
  induction l with
  | nil => rfl
  | cons c rest ih =>
    have hc := hsafe c (List.mem_cons_self c rest)
    have hnc : normAttrChar c = c := by
      unfold normAttrChar
      rw [if_neg]
      intro hcontra
      rcases hcontra with h | h | h <;> rw [h] at hc <;>
        exact absurd hc (by decide)
    rw [List.map_cons, hnc,
      ih (fun x hx => hsafe x (List.mem_cons_of_mem c hx))]

theorem joinComma_all (g : Char → Bool) (hg : g ',' = true) :
    ∀ ps : List (List Char), (∀ part ∈ ps, part.all g = true) →
      (joinComma ps).all g = true := by
  intro ps
  induction ps with
  | nil =>
    intro _
    rfl
  | cons p rest ih =>
    intro hall
    cases rest with
    | nil => exact hall p (List.mem_cons_self p [])
    | cons q t =>
      rw [joinComma_two, List.all_append, List.all_cons]
      rw [hall p (List.mem_cons_self p (q :: t)), hg,
        ih (fun part hp => hall part (List.mem_cons_of_mem p hp))]
      rfl

theorem splitComma_all (g : Char → Bool) :
    ∀ l : List Char, l.all g = true →
      ∀ part ∈ splitComma l, part.all g = true := by
  intro l
  induction l with
  | nil =>
    intro _ part hp
    simp [splitComma] at hp
    rw [hp]
    rfl
  | cons c rest ih =>
    intro hall part hp
    rw [List.all_cons, Bool.and_eq_true] at hall
    by_cases hc : c = ','
    · subst hc
      rw [splitComma_comma] at hp
      rcases List.mem_cons.mp hp with hp | hp
      · rw [hp]
        rfl
      · exact ih hall.2 part hp
    · cases hr : splitComma rest with
      | nil => exact absurd hr (splitComma_ne_nil rest)
      | cons hpart t =>
        rw [splitComma_cons_ne c rest hpart t hc hr] at hp
        rcases List.mem_cons.mp hp with hp | hp
        · rw [hp, List.all_cons, hall.1,
            ih hall.2 hpart (hr ▸ List.mem_cons_self hpart t)]
          rfl
        · exact ih hall.2 part (hr ▸ List.mem_cons_of_mem hpart hp)

theorem pyInsert_mem (a : α) :
    ∀ (l : List α) (n : Nat) (b : α), b ∈ pyInsert n a l →
      b = a ∨ b ∈ l := by
  intro l
  induction l with
  | nil =>
    intro n b hb
    simp [pyInsert] at hb
    exact Or.inl hb
  | cons x xs ih =>
    intro n b hb
    cases n with
    | zero =>
      rcases List.mem_cons.mp hb with hb | hb
      · exact Or.inl hb
      · exact Or.inr hb
    | succ m =>
      rcases List.mem_cons.mp hb with hb | hb
      · exact Or.inr (hb ▸ List.mem_cons_self x xs)
      · rcases ih m b hb with hb | hb
        · exact Or.inl hb
        · exact Or.inr (List.mem_cons_of_mem x hb)

theorem fixP_eq (p : List Char) :
    fixP p = if coreCount (splitComma p) = 3
      then joinComma (pyInsert 2 ['2', '5'] (splitComma p)) else p := rfl

theorem fixP_safe (p : List Char) (h : p.all attrSafeChar = true) :
    (fixP p).all attrSafeChar = true := by
  rw [fixP_eq]
  by_cases hc : coreCount (splitComma p) = 3
  · rw [if_pos hc]
    apply joinComma_all attrSafeChar (by decide)
    intro part hpart
    rcases pyInsert_mem ['2', '5'] (splitComma p) 2 part hpart with h1 | h1
    · rw [h1]
      decide
    · exact splitComma_all attrSafeChar p h part h1
  · rw [if_neg hc]
    exact h

theorem all_attrSafe_no_amp (l : List Char)
    (h : l.all attrSafeChar = true) : ∀ c ∈ l, ¬ c = '&' := by
  intro c hc heq
  have hcc := List.all_eq_true.mp h c hc
  rw [heq] at hcc
  exact absurd hcc (by decide)

theorem attrSafe_imp (c : Char) (h : attrSafeChar c = true) :
    xmlValidChar c = true
      ∧ ¬ c = '&' ∧ ¬ c = '<' ∧ ¬ c = '"' ∧ ¬ c = '\r' := by
  have h1 := h
  unfold attrSafeChar at h1
  rw [Bool.and_eq_true] at h1
  refine ⟨h1.1, ?_, ?_, ?_, ?_⟩ <;> intro heq <;> rw [heq] at h <;>
    exact absurd h (by decide)

theorem textSafe_imp (c : Char) (h : textSafeChar c = true) :
    xmlValidChar c = true ∧ ¬ c = '\r' := by
  have h1 := h
  unfold textSafeChar at h1
  rw [Bool.and_eq_true] at h1
  refine ⟨h1.1, ?_⟩
  intro heq
  rw [heq] at h
  exact absurd h (by decide)

theorem normNLAux_cons (fuel : Nat) (c : Char) (rest : List Char) :
    normNLAux (fuel + 1) (c :: rest) =
      (if c = '\r' ∧ rest.take 1 = ['\n'] then
        '\n' :: normNLAux fuel (rest.drop 1)
      else if c = '\r' then '\n' :: normNLAux fuel rest
      else c :: normNLAux fuel rest) := rfl

theorem normNLAux_no_cr (fuel : Nat) :
    ∀ l : List Char, l.length ≤ fuel → (∀ c ∈ l, ¬ c = '\r') →
      normNLAux fuel l = l := by
  induction fuel with
  | zero =>
    intro l hlen _
    have h0 : l = [] := List.length_eq_zero.mp (by omega)
    rw [h0]
    rfl
  | succ fuel ih =>
    intro l hlen hsafe
    cases l with
    | nil => rfl
    | cons c rest =>
      have hc : ¬ c = '\r' := hsafe c (List.mem_cons_self c rest)
      rw [normNLAux_cons]
      rw [if_neg (fun hcontra => hc hcontra.1), if_neg hc]
      rw [ih rest (by simp at hlen; omega)
        (fun x hx => hsafe x (List.mem_cons_of_mem c hx))]

theorem normNewlines_no_cr (l : List Char) (h : ∀ c ∈ l, ¬ c = '\r') :
    normNewlines l = l := normNLAux_no_cr l.length l le_rfl h

theorem ampOk_cons (c : Char) (rest : List Char) :
    ampOk (c :: rest) =
      (if c = '&' then
        ((rest.take 4 == ['a', 'm', 'p', ';'])
            || (rest.take 3 == ['l', 't', ';'])
            || (rest.take 3 == ['g', 't', ';'])
            || (rest.take 5 == ['q', 'u', 'o', 't', ';'])
            || (rest.take 5 == ['a', 'p', 'o', 's', ';'])) && ampOk rest
      else ampOk rest) := rfl

theorem ampOk_cons_ne (c : Char) (rest : List Char) (h : ¬ c = '&') :
    ampOk (c :: rest) = ampOk rest := by
  rw [ampOk_cons, if_neg h]

theorem ampOk_no_amp :
    ∀ l : List Char, (∀ c ∈ l, ¬ c = '&') → ampOk l = true := by
  intro l
  induction l with
  | nil =>
    intro _
    rfl
  | cons c rest ih =>
    intro hsafe
    rw [ampOk_cons_ne c rest (hsafe c (List.mem_cons_self c rest))]
    exact ih (fun x hx => hsafe x (List.mem_cons_of_mem c hx))

theorem ampOk_escape : ∀ s : List Char, ampOk (escapeChars s) = true := by
  intro s
  induction s with
  | nil => rfl
  | cons c cs ih =>
    by_cases h1 : c = '&'
    · have hesc : escapeChars (c :: cs)
          = '&' :: 'a' :: 'm' :: 'p' :: ';' :: escapeChars cs := by
        simp only [escapeChars]
        rw [if_pos h1]
      rw [hesc]
      show ampOk ('a' :: 'm' :: 'p' :: ';' :: escapeChars cs) = true
      rw [ampOk_cons_ne _ _ (by decide), ampOk_cons_ne _ _ (by decide),
        ampOk_cons_ne _ _ (by decide), ampOk_cons_ne _ _ (by decide)]
      exact ih
    · by_cases h2 : c = '<'
      · have hesc : escapeChars (c :: cs)
            = '&' :: 'l' :: 't' :: ';' :: escapeChars cs := by
          simp only [escapeChars]
          rw [if_neg h1, if_pos h2]
        rw [hesc]
        show ampOk ('l' :: 't' :: ';' :: escapeChars cs) = true
        rw [ampOk_cons_ne _ _ (by decide), ampOk_cons_ne _ _ (by decide),
          ampOk_cons_ne _ _ (by decide)]
        exact ih
      · by_cases h3 : c = '>'
        · have hesc : escapeChars (c :: cs)
              = '&' :: 'g' :: 't' :: ';' :: escapeChars cs := by
            simp only [escapeChars]
            rw [if_neg h1, if_neg h2, if_pos h3]
          rw [hesc]
          show ampOk ('g' :: 't' :: ';' :: escapeChars cs) = true
          rw [ampOk_cons_ne _ _ (by decide), ampOk_cons_ne _ _ (by decide),
            ampOk_cons_ne _ _ (by decide)]
          exact ih
        · have hesc : escapeChars (c :: cs) = c :: escapeChars cs := by
            simp only [escapeChars]
            rw [if_neg h1, if_neg h2, if_neg h3]
          rw [hesc, ampOk_cons_ne c _ h1]
          exact ih

theorem escapeChars_mem (s : List Char) :
    ∀ c ∈ escapeChars s,
      (c ∈ s ∧ ¬ c = '<' ∧ ¬ c = '>' ∧ ¬ c = '&')
        ∨ c ∈ ['&', 'a', 'm', 'p', ';', 'l', 't', 'g'] := by
  induction s with
  | nil =>
    intro c hc
    simp [escapeChars] at hc
  | cons x xs ih =>
    intro c hc
    by_cases h1 : x = '&'
    · have hesc : escapeChars (x :: xs)
          = '&' :: 'a' :: 'm' :: 'p' :: ';' :: escapeChars xs := by
        simp only [escapeChars]
        rw [if_pos h1]
      rw [hesc] at hc
      simp only [List.mem_cons] at hc
      rcases hc with h | h | h | h | h | h
      · exact Or.inr (by rw [h]; decide)
      · exact Or.inr (by rw [h]; decide)
      · exact Or.inr (by rw [h]; decide)
      · exact Or.inr (by rw [h]; decide)
      · exact Or.inr (by rw [h]; decide)
      · rcases ih c h with ⟨hmem, hr⟩ | hent
        · exact Or.inl ⟨List.mem_cons_of_mem x hmem, hr⟩
        · exact Or.inr hent
    · by_cases h2 : x = '<'
      · have hesc : escapeChars (x :: xs)
            = '&' :: 'l' :: 't' :: ';' :: escapeChars xs := by
          simp only [escapeChars]
          rw [if_neg h1, if_pos h2]
        rw [hesc] at hc
        simp only [List.mem_cons] at hc
        rcases hc with h | h | h | h | h
        · exact Or.inr (by rw [h]; decide)
        · exact Or.inr (by rw [h]; decide)
        · exact Or.inr (by rw [h]; decide)
        · exact Or.inr (by rw [h]; decide)
        · rcases ih c h with ⟨hmem, hr⟩ | hent
          · exact Or.inl ⟨List.mem_cons_of_mem x hmem, hr⟩
          · exact Or.inr hent
      · by_cases h3 : x = '>'
        · have hesc : escapeChars (x :: xs)
              = '&' :: 'g' :: 't' :: ';' :: escapeChars xs := by
            simp only [escapeChars]
            rw [if_neg h1, if_neg h2, if_pos h3]
          rw [hesc] at hc
          simp only [List.mem_cons] at hc
          rcases hc with h | h | h | h | h
          · exact Or.inr (by rw [h]; decide)
          · exact Or.inr (by rw [h]; decide)
          · exact Or.inr (by rw [h]; decide)
          · exact Or.inr (by rw [h]; decide)
          · rcases ih c h with ⟨hmem, hr⟩ | hent
            · exact Or.inl ⟨List.mem_cons_of_mem x hmem, hr⟩
            · exact Or.inr hent
        · have hesc : escapeChars (x :: xs) = x :: escapeChars xs := by
            simp only [escapeChars]
            rw [if_neg h1, if_neg h2, if_neg h3]
          rw [hesc] at hc
          rcases List.mem_cons.mp hc with h | h
          · rw [h]
            exact Or.inl ⟨List.mem_cons_self x xs, h2, h3, h1⟩
          · rcases ih c h with ⟨hmem, hr⟩ | hent
            · exact Or.inl ⟨List.mem_cons_of_mem x hmem, hr⟩
            · exact Or.inr hent

theorem escapeChars_text_ok (m : List Char)
    (hm : m.all textSafeChar = true) :
    (escapeChars m).all (fun c => xmlValidChar c && !(c = '<')) = true := by
  rw [List.all_eq_true]
  intro c hc
  rcases escapeChars_mem m c hc with ⟨hmem, hlt, _, _⟩ | hent
  · have hts := textSafe_imp c (List.all_eq_true.mp hm c hmem)
    rw [Bool.and_eq_true]
    exact ⟨hts.1, by simpa using hlt⟩
  · simp only [List.mem_cons] at hent
    rcases hent with h | h | h | h | h | h | h | h
    · rw [h]; decide
    · rw [h]; decide
    · rw [h]; decide
    · rw [h]; decide
    · rw [h]; decide
    · rw [h]; decide
    · rw [h]; decide
    · simp at h
      rw [h]
      decide

theorem escapeChars_no_cr (m : List Char)
    (hm : m.all textSafeChar = true) :
    ∀ c ∈ escapeChars m, ¬ c = '\r' := by
  intro c hc
  rcases escapeChars_mem m c hc with ⟨hmem, _, _, _⟩ | hent
  · exact (textSafe_imp c (List.all_eq_true.mp hm c hmem)).2
  · simp only [List.mem_cons] at hent
    rcases hent with h | h | h | h | h | h | h | h
    · rw [h]; decide
    · rw [h]; decide
    · rw [h]; decide
    · rw [h]; decide
    · rw [h]; decide
    · rw [h]; decide
    · rw [h]; decide
    · simp at h
      rw [h]
      decide

theorem parseEntriesAux_cons (praw traw : List Char)
    (rest : List (List Char × List Char)) :
    parseEntriesAux ((praw, traw) :: rest) =
      (if entryWellFormed praw traw then
        match parseEntry praw traw with
        | some c => c :: parseEntriesAux rest
        | none => parseEntriesAux rest
      else []) := rfl

/-- A generated entry with attribute-safe packed field and text-safe
text serializes to a well-formed element: no parse failure. -/
theorem entryWellFormed_genEntry (c : DComment)
    (hp : c.p.all attrSafeChar = true)
    (hm : c.m.all textSafeChar = true) :
    entryWellFormed (fixP c.p) (escapeChars c.m) = true := by
  have hfix : (fixP c.p).all attrSafeChar = true := fixP_safe c.p hp
  unfold entryWellFormed
  rw [Bool.and_eq_true, Bool.and_eq_true, Bool.and_eq_true]
  refine ⟨⟨⟨?_, ?_⟩, ?_⟩, ?_⟩
  · rw [List.all_eq_true]
    intro x hx
    obtain ⟨hv, _, hlt, hq, _⟩ := attrSafe_imp x (List.all_eq_true.mp hfix x hx)
    simp [hv, hlt, hq]
  · exact ampOk_no_amp _ (all_attrSafe_no_amp _ hfix)
  · exact escapeChars_text_ok c.m hm
  · exact ampOk_escape c.m

/-- Round trip of one generated entry through the parser, on the safe
domain: nonempty text-safe text, attribute-safe packed field, at least
4 fields after the size fix. -/
theorem parseEntry_genEntry (c : DComment) (hm : c.m ≠ [])
    (hmsafe : c.m.all textSafeChar = true)
    (hsafe : (fixP c.p).all attrSafeChar = true)
    (hlen : 4 ≤ (splitComma (fixP c.p)).length) :
    parseEntry (fixP c.p) (escapeChars c.m)
      = some { p := joinComma ((splitComma (fixP c.p)).take 4)
                 ++ ',' :: ("[custom_xml]".data),
               m := c.m } := by
  have hnlp : normNewlines (fixP c.p) = fixP c.p :=
    normNewlines_no_cr _
      (fun x hx => (attrSafe_imp x (List.all_eq_true.mp hsafe x hx)).2.2.2.2)
  have hnlt : normNewlines (escapeChars c.m) = escapeChars c.m :=
    normNewlines_no_cr _ (escapeChars_no_cr c.m hmsafe)
  have hid : (unescapeChars (fixP c.p)).map normAttrChar = fixP c.p := by
    rw [unescapeChars_no_amp (fixP c.p) (all_attrSafe_no_amp _ hsafe)]
    exact map_normAttrChar_id _ (List.all_eq_true.mp hsafe)
  simp only [parseEntry]
  rw [if_neg (escapeChars_ne_nil c.m hm), hnlp, hnlt, hid, if_pos hlen,
    unescapeChars_escape]

/-- The parser's 4-field truncation plus `[custom_xml]` marker does not
change the (time, mode, size, color, text) reading. -/
theorem commentTuple_mk (p m : List Char) :
    commentTuple { p := p, m := m } =
      (match splitComma p with
       | t :: mo :: s :: co :: _ => some (t, mo, s, co, m)
       | _ => none) := rfl

theorem commentTuple_parsed (c : DComment)
    (hlen : 4 ≤ (splitComma (fixP c.p)).length) :
    commentTuple { p := joinComma ((splitComma (fixP c.p)).take 4)
                     ++ ',' :: ("[custom_xml]".data), m := c.m }
      = commentTuple { p := fixP c.p, m := c.m } := by
  obtain ⟨p1, p2, p3, p4, rest, hparts⟩ :
      ∃ p1 p2 p3 p4 rest,
        splitComma (fixP c.p) = p1 :: p2 :: p3 :: p4 :: rest := by
    rcases hs : splitComma (fixP c.p) with _ | ⟨p1, _ | ⟨p2, _ | ⟨p3, _ | ⟨p4, rest⟩⟩⟩⟩
    · rw [hs] at hlen
      simp at hlen
    · rw [hs] at hlen
      simp at hlen
    · rw [hs] at hlen
      simp at hlen
    · rw [hs] at hlen
      simp at hlen
    · exact ⟨p1, p2, p3, p4, rest, rfl⟩
  have htake : (splitComma (fixP c.p)).take 4 = [p1, p2, p3, p4] := by
    rw [hparts]
    rfl
  have hnc : ∀ part ∈ [p1, p2, p3, p4], ',' ∉ part := by
    intro part hp
    apply splitComma_no_comma (fixP c.p)
    rw [hparts]
    simp at hp
    rcases hp with h | h | h | h <;> subst h <;> simp
  have hsplit : splitComma
        (joinComma [p1, p2, p3, p4] ++ ',' :: ("[custom_xml]".data))
      = [p1, p2, p3, p4] ++ splitComma ("[custom_xml]".data) :=
    splitComma_join_front [p1, p2, p3, p4] ("[custom_xml]".data)
      (by simp) hnc
  have htag : splitComma ("[custom_xml]".data) = [("[custom_xml]".data)] :=
    splitComma_of_no_comma _ (by decide)
  rw [commentTuple_mk, commentTuple_mk, htake, hsplit, htag, hparts]
  rfl

/-- C7 amended: on comments with nonempty text of XML-valid characters
free of carriage returns, an XML-attribute-safe packed attribute and at
least 4 fields after the size fix, generating the interchange document
and parsing it back yields, entry for entry, the same (time, mode,
size, color, text) tuples, where a 3-core-field packed attribute first
gains the default size 25 between mode and color (`fixP`). -/
theorem codec_roundtrip (cs : List DComment)
    (h : ∀ c ∈ cs, c.m ≠ [] ∧ c.m.all textSafeChar = true
        ∧ c.p.all attrSafeChar = true
        ∧ 4 ≤ (splitComma (fixP c.p)).length) :
    (parseEntries (genEntries cs)).map commentTuple
      = cs.map (fun c => commentTuple { p := fixP c.p, m := c.m }) := by
  induction cs with
  | nil => rfl
  | cons c rest ih =>
    rcases h c (List.mem_cons_self c rest) with ⟨hm, hmsafe, hsafe, hlen⟩
    have hsafe' : (fixP c.p).all attrSafeChar = true := fixP_safe c.p hsafe
    have hwf := entryWellFormed_genEntry c hsafe hmsafe
    have hpe := parseEntry_genEntry c hm hmsafe hsafe' hlen
    have hstep : parseEntries (genEntries (c :: rest))
        = { p := joinComma ((splitComma (fixP c.p)).take 4)
              ++ ',' :: ("[custom_xml]".data), m := c.m }
          :: parseEntries (genEntries rest) := by
      show parseEntriesAux ((fixP c.p, escapeChars c.m) :: List.map genEntry rest)
        = _
      rw [parseEntriesAux_cons, hwf, if_pos rfl, hpe]
      rfl
    rw [hstep, List.map_cons, List.map_cons]
    congr 1
    · exact commentTuple_parsed c hlen
    · exact ih (fun x hx => h x (List.mem_cons_of_mem c hx))

/-- Counterexample to C7 as stated: a comment with empty text generates
`<d p="1,2,3,4"></d>`, whose `text` is `None` to the parser, so the
entry is dropped — parsing yields no entry at all instead of the same
tuple. -/
theorem codec_roundtrip_cex :
    parseEntries (genEntries [codecCexComment]) = []
    ∧ (parseEntries (genEntries [codecCexComment])).map commentTuple
        ≠ [codecCexComment].map
            (fun c => commentTuple { p := fixP c.p, m := c.m }) := by
  refine ⟨rfl, ?_⟩
  intro heq
  rw [show parseEntries (genEntries [codecCexComment]) = [] from rfl] at heq
  simp at heq

/-- Witness for the amended C7 at a concrete comment. -/
theorem codec_roundtrip_witness :
    (parseEntries (genEntries [codecWitnessComment])).map commentTuple
      = [codecWitnessComment].map
          (fun c => commentTuple { p := fixP c.p, m := c.m }) :=
  codec_roundtrip [codecWitnessComment] (by decide)

end Danmu
